import Mathlib

/-!
Verification of the traceability-graph engine of this repository.

The Python sources embedded here (shallowly, as executable Lean functions):
  * scripts/github-issues-to-traceability-json.py  (issue-path extractor, graph assembly, metrics)
  * scripts/build-traceability.py                  (markdown-path patterns and metrics)
  * scripts/generators/spec_parser.py              (item builder and first-wins dedup)
  * scripts/check-spec-numbering.py                (numbering-gap analysis)
  * scripts/github-orphan-check.py                 (orphan detection)

Regular-expression scans (`re.findall` / `re.finditer`) are embedded as
character-list scanners with the same leftmost, non-overlapping semantics,
including the greedy/lazy and backtracking behaviour of the concrete patterns
used by the scripts.  Word characters are modelled as ASCII word characters,
which is exact for every pattern appearing in the sources.
-/

namespace Trace

/-- ASCII word character, modelling the `\w` class of Python `re`
(ASCII fragment; every pattern in the sources is ASCII). -/
def isWordChar (c : Char) : Bool := c.isAlpha || c.isDigit || c = '_'

/-- Uppercase ASCII letter, the `[A-Z]` class. -/
def isUpperAZ (c : Char) : Bool := 'A' ≤ c && c ≤ 'Z'

/-- Whitespace, the `\s` class of Python `re` (ASCII fragment). -/
def isSpaceChar (c : Char) : Bool :=
  c = ' ' || c = '\t' || c = '\n' || c = '\r' || c = '\x0b' || c = '\x0c'

/-- Numeric value of a run of decimal digits, as Python `int` on the
matched group of `(\d+)`. -/
def digitsToNat (ds : List Char) : Nat :=
  ds.foldl (fun a c => a * 10 + (c.toNat - 48)) 0

/-- One step of the scan for the pattern `#(\d+)`:
walks the text, and at each `#` followed by at least one digit emits the
maximal digit run (non-overlapping, continuing after the digits),
exactly as `re.findall(r'#(\d+)', body)`. -/
def hashScan : Nat → List Char → List Nat
  | 0, _ => []
  | _ + 1, [] => []
  | fuel + 1, c :: rest =>
    if c = '#' then
      match rest.span (fun d => d.isDigit) with
      | ([], _) => hashScan fuel rest
      | (ds, rest2) => digitsToNat ds :: hashScan fuel rest2
    else hashScan fuel rest

/-- All `#N` cross-reference tokens of a body, in textual order
(`re.findall(r'#(\d+)', body)` with `int` applied to each group). -/
def hashTokens (body : String) : List Nat :=
  hashScan body.data.length body.data

/-- `extract_issue_links` of `github-issues-to-traceability-json.py`
(lines 34-50): every `#N` reference in the body becomes a `traces_to`
entry; the result is `sorted(set(...))`. -/
def extract_issue_links (body : String) : List Nat :=
  if body = "" then []
  else ((hashTokens body).dedup).insertionSort (· ≤ ·)

/-- Strip a case-insensitive literal from the front of the text
(the `re.IGNORECASE` matching of a literal), returning the remainder. -/
def ciStrip : List Char → List Char → Option (List Char)
  | [], s => some s
  | _ :: _, [] => none
  | l :: ls, c :: cs => if l.toLower = c.toLower then ciStrip ls cs else none

/-- Strip a case-sensitive literal from the front of the text. -/
def stripLit : List Char → List Char → Option (List Char)
  | [], s => some s
  | _ :: _, [] => none
  | l :: ls, c :: cs => if l = c then stripLit ls cs else none

/-- The lazy tail `.*?#(\d+)` of the link patterns of
`build-traceability.py` (no `re.DOTALL`, so `.` stops at a newline):
the nearest `#` followed by at least one digit, reached without
crossing a newline, yields the maximal digit run. -/
def lazyHash : Nat → List Char → Option (Nat × List Char)
  | 0, _ => none
  | _ + 1, [] => none
  | fuel + 1, c :: rest =>
    if c = '\n' then none
    else if c = '#' then
      match rest.span (fun d => d.isDigit) with
      | ([], _) => lazyHash fuel rest
      | (ds, rest2) => some (digitsToNat ds, rest2)
    else lazyHash fuel rest

/-- `re.finditer` for a pattern `<literal>.*?#(\d+)` with `re.IGNORECASE`:
leftmost matches, non-overlapping, scan resuming after each match. -/
def kwScan (kw : List Char) : Nat → List Char → List Nat
  | 0, _ => []
  | _ + 1, [] => []
  | fuel + 1, c :: rest =>
    match ciStrip kw (c :: rest) with
    | some afterKw =>
      match lazyHash afterKw.length afterKw with
      | some (n, rest2) => n :: kwScan kw fuel rest2
      | none => kwScan kw fuel rest
    | none => kwScan kw fuel rest

/-- `TRACES_TO_PATTERN` of `build-traceability.py` (line 24), applied with
`finditer` and `int` on the captured group:
`re.compile(r'\*\*Traces to\*\*:.*?#(\d+)', re.IGNORECASE)`. -/
def tracesToFindall (content : String) : List Nat :=
  kwScan "**Traces to**:".data content.data.length content.data

/-- `VERIFIED_BY_PATTERN` of `build-traceability.py` (line 25):
`re.compile(r'\*\*Verified by\*\*:.*?#(\d+)', re.IGNORECASE)`. -/
def verifiedByFindall (content : String) : List Nat :=
  kwScan "**Verified by**:".data content.data.length content.data

/-- `IMPLEMENTS_PATTERN` of `build-traceability.py` (line 26):
`re.compile(r'\*\*Implements\*\*:.*?#(\d+)', re.IGNORECASE | re.MULTILINE)`
(`MULTILINE` is inert: the pattern has no anchors). -/
def implementsFindall (content : String) : List Nat :=
  kwScan "**Implements**:".data content.data.length content.data

/-- The lazy gap `.*?\*\*:` of `SATISFIES_PATTERN` / `REFINED_BY_PATTERN`:
the nearest literal `**:` reached without crossing a newline.  Lazy-first
search is equivalent to the backtracking semantics, because a failure of
the rest of the pattern from the earliest `**:` implies failure from
every later one (the remaining scan region only shrinks). -/
def gapToColon : Nat → List Char → Option (List Char)
  | 0, _ => none
  | _ + 1, [] => none
  | fuel + 1, c :: rest =>
    if c = '\n' then none
    else
      match stripLit ('*' :: '*' :: ':' :: []) (c :: rest) with
      | some r => some r
      | none => gapToColon fuel rest

/-- `re.finditer` for a pattern `\*\*<kw>.*?\*\*:.*?#(\d+)` with
`re.IGNORECASE`: opening bold and case-insensitive keyword, the lazy gap
to the closing `**:`, then the lazy `#(\d+)` tail; leftmost,
non-overlapping, resuming after each match. -/
def kwGapScan (kw : List Char) : Nat → List Char → List Nat
  | 0, _ => []
  | _ + 1, [] => []
  | fuel + 1, c :: rest =>
    match ciStrip ('*' :: '*' :: kw) (c :: rest) with
    | some afterKw =>
      match gapToColon afterKw.length afterKw with
      | some afterColon =>
        match lazyHash afterColon.length afterColon with
        | some (n, rest2) => n :: kwGapScan kw fuel rest2
        | none => kwGapScan kw fuel rest
      | none => kwGapScan kw fuel rest
    | none => kwGapScan kw fuel rest

/-- `SATISFIES_PATTERN` of `build-traceability.py` (line 27):
`re.compile(r'\*\*Satisfies.*?\*\*:.*?#(\d+)', re.IGNORECASE)`. -/
def satisfiesFindall (content : String) : List Nat :=
  kwGapScan "Satisfies".data content.data.length content.data

/-- `REFINED_BY_PATTERN` of `build-traceability.py` (line 28):
`re.compile(r'\*\*Refined by.*?\*\*:.*?#(\d+)', re.IGNORECASE)`. -/
def refinedByFindall (content : String) : List Nat :=
  kwGapScan "Refined by".data content.data.length content.data

/-- The tail `\s+to:?\s*#(\d+)` of the parent-link pattern of
`github-orphan-check.py`: mandatory whitespace, literal `to`, optional
colon, optional whitespace, then `#` and a digit run. -/
def parentTail (s : List Char) : Option (Nat × List Char) :=
  match s.span isSpaceChar with
  | ([], _) => none
  | (_ :: _, r1) =>
    match r1 with
    | 't' :: 'o' :: r2 =>
      let r3 := match r2 with
        | ':' :: r => r
        | _ => r2
      let r4 := (r3.span isSpaceChar).2
      match r4 with
      | '#' :: r5 =>
        match r5.span (fun d => d.isDigit) with
        | ([], _) => none
        | (ds, r6) => some (digitsToNat ds, r6)
      | _ => none
    | _ => none

/-- One match attempt of `[Tt]races?\s+to:?\s*#(\d+)` at the current
position: `T` or `t`, literal `race`, optional `s` (greedy, with
backtracking), then the tail. -/
def parentAt (s : List Char) : Option (Nat × List Char) :=
  match s with
  | c :: rest =>
    if c = 'T' || c = 't' then
      match stripLit "race".data rest with
      | some r1 =>
        match r1 with
        | 's' :: r2 =>
          match parentTail r2 with
          | some res => some res
          | none => parentTail r1
        | _ => parentTail r1
      | none => none
    else none
  | [] => none

/-- `re.findall` driver for the parent-link pattern: leftmost,
non-overlapping matches. -/
def parentScan : Nat → List Char → List Nat
  | 0, _ => []
  | _ + 1, [] => []
  | fuel + 1, c :: rest =>
    match parentAt (c :: rest) with
    | some (n, rest2) => n :: parentScan fuel rest2
    | none => parentScan fuel rest

/-- `extract_parent_links` of `github-orphan-check.py` (lines 89-95):
`re.findall(r'[Tt]races?\s+to:?\s*#(\d+)', issue_body)`, as ints. -/
def extract_parent_links (issue_body : String) : List Nat :=
  if issue_body = "" then []
  else parentScan issue_body.data.length issue_body.data

/-! ### spec_parser.py: REF_PATTERN, build_item, first-definition-wins dedup -/

/-- The `[A-Z0-9]` class of `REF_PATTERN`. -/
def isIdBody (c : Char) : Bool := isUpperAZ c || c.isDigit

/-- The `[A-Z0-9\-]` class of `REF_PATTERN`'s star. -/
def isIdStar (c : Char) : Bool := isIdBody c || c = '-'

/-- Truth of `\b` at a position whose preceding character is `lastC`:
boundary iff exactly one side is a word character (end of text counts
as non-word). -/
def boundaryAfter (lastC : Char) : List Char → Bool
  | [] => isWordChar lastC
  | c :: _ => isWordChar lastC != isWordChar c

/-- Backtracking of the greedy `[A-Z0-9\-]*` against the trailing `\b`:
the first argument is the reversed greedy run; characters are given back
one at a time until the boundary holds.  Returns the reversed kept run
and the remaining text. -/
def shrinkRun (headC : Char) : List Char → List Char → Option (List Char × List Char)
  | [], rest => if boundaryAfter headC rest then some ([], rest) else none
  | c :: rrun, rest =>
    if boundaryAfter c rest then some (c :: rrun, rest)
    else shrinkRun headC rrun (c :: rest)

/-- The tail `[A-Z0-9][A-Z0-9\-]*\b` of `REF_PATTERN`: one body
character, a greedy star, then the boundary with backtracking. -/
def refTail : List Char → Option (List Char × List Char)
  | [] => none
  | c :: r =>
    if isIdBody c then
      match shrinkRun c (r.takeWhile isIdStar).reverse (r.dropWhile isIdStar) with
      | some (rrun, rest2) => some (c :: rrun.reverse, rest2)
      | none => none
    else none

/-- The alternation `(?:StR|REQ|ARC|ADR|QA|TEST)` followed by `-`.
The six literals are pairwise non-matching at any one position, so
first-match order equals Python's alternation order. -/
def refAltFrom : List (List Char) → List Char → Option (List Char × List Char)
  | [], _ => none
  | a :: alts, s =>
    match stripLit a s with
    | some ('-' :: r2) => some (a ++ ['-'], r2)
    | _ => refAltFrom alts s

def refAlt (s : List Char) : Option (List Char × List Char) :=
  refAltFrom (List.map String.data ["StR", "REQ", "ARC", "ADR", "QA", "TEST"]) s

/-- The optional `(?:[A-Z]{4}-)?` category segment (greedy). -/
def refCat : List Char → Option (List Char × List Char)
  | a :: b :: c :: d :: '-' :: r =>
    if isUpperAZ a && isUpperAZ b && isUpperAZ c && isUpperAZ d then
      some ([a, b, c, d, '-'], r)
    else none
  | _ => none

/-- A full match attempt of `REF_PATTERN`
(`\b(?:StR|REQ|ARC|ADR|QA|TEST)-(?:[A-Z]{4}-)?[A-Z0-9][A-Z0-9\-]*\b`)
at the current position; `prevWord` tells whether the preceding
character is a word character (for the leading `\b`).  The optional
category is tried greedily, falling back to the category-free branch. -/
def refAt (s : List Char) (prevWord : Bool) : Option (List Char × List Char) :=
  if prevWord then none
  else
    match refAlt s with
    | none => none
    | some (pre, r1) =>
      match refCat r1 with
      | some (cat, r2) =>
        match refTail r2 with
        | some (t, rest) => some (pre ++ cat ++ t, rest)
        | none =>
          match refTail r1 with
          | some (t, rest) => some (pre ++ t, rest)
          | none => none
      | none =>
        match refTail r1 with
        | some (t, rest) => some (pre ++ t, rest)
        | none => none

/-- `re.findall` driver for `REF_PATTERN`: leftmost non-overlapping
matches, `prevWord` tracking the character before the scan position. -/
def refScan : Nat → List Char → Bool → List String
  | 0, _, _ => []
  | _ + 1, [], _ => []
  | fuel + 1, c :: rest, prevWord =>
    match refAt (c :: rest) prevWord with
    | some (m, rest2) =>
      String.mk m :: refScan fuel rest2 (isWordChar (m.getLastD 'A'))
    | none => refScan fuel rest (isWordChar c)

/-- `REF_PATTERN.findall(full_text)` of `spec_parser.py` (line 43). -/
def refFindall (full_text : String) : List String :=
  refScan full_text.data.length full_text.data false

/-! SHA-1, for the `hashlib.sha1(full_text.encode('utf-8')).hexdigest()[:8]`
of `build_item`.  32-bit words are naturals kept below `2 ^ 32`. -/

/-- UTF-8 encoding of one character, as `str.encode('utf-8')`. -/
def encodeChar (c : Char) : List Nat :=
  let n := c.toNat
  if n < 128 then [n]
  else if n < 2048 then [192 + n / 64, 128 + n % 64]
  else if n < 65536 then [224 + n / 4096, 128 + (n / 64) % 64, 128 + n % 64]
  else [240 + n / 262144, 128 + (n / 4096) % 64, 128 + (n / 64) % 64, 128 + n % 64]

/-- UTF-8 bytes of a string. -/
def utf8Bytes (s : String) : List Nat :=
  s.data.foldr (fun c acc => encodeChar c ++ acc) []

/-- Truncation to a 32-bit word. -/
def w32 (n : Nat) : Nat := n % 4294967296

/-- Left rotation of a 32-bit word by `k` bits. -/
def rotl (k n : Nat) : Nat := (n % 2 ^ (32 - k)) * 2 ^ k + n / 2 ^ (32 - k)

/-- 32-bit complement. -/
def not32 (n : Nat) : Nat := Nat.xor n 4294967295

/-- Big-endian bytes of the 64-bit message length. -/
def lenBytes8 (n : Nat) : List Nat :=
  (List.range 8).map (fun i => n / 2 ^ (8 * (7 - i)) % 256)

/-- SHA-1 padding: `0x80`, zeros to 56 mod 64, then the bit length. -/
def padMsg (m : List Nat) : List Nat :=
  m ++ 128 :: List.replicate ((119 - m.length % 64) % 64) 0 ++ lenBytes8 (8 * m.length)

/-- Split into 64-byte chunks. -/
def chunks64 : Nat → List Nat → List (List Nat)
  | 0, _ => []
  | _ + 1, [] => []
  | fuel + 1, l => l.take 64 :: chunks64 fuel (l.drop 64)

/-- Big-endian 32-bit words of a 64-byte chunk. -/
def toWords : List Nat → List Nat
  | a :: b :: c :: d :: r => (a * 16777216 + b * 65536 + c * 256 + d) :: toWords r
  | _ => []

/-- Message-schedule extension: `w[i] = rotl1 (w[i-3] ^ w[i-8] ^ w[i-14] ^ w[i-16])`,
on the reversed word list (most recent first). -/
def extendW : Nat → List Nat → List Nat
  | 0, rws => rws
  | k + 1, rws =>
    extendW k
      (rotl 1 (Nat.xor (Nat.xor (rws.getD 2 0) (rws.getD 7 0))
        (Nat.xor (rws.getD 13 0) (rws.getD 15 0))) :: rws)

/-- One round of the SHA-1 compression function. -/
def sha1Round (st : Nat × Nat × Nat × Nat × Nat) (iw : Nat × Nat) :
    Nat × Nat × Nat × Nat × Nat :=
  let (a, b, c, d, e) := st
  let (i, w) := iw
  let f :=
    if i < 20 then Nat.lor (Nat.land b c) (Nat.land (not32 b) d)
    else if i < 40 then Nat.xor b (Nat.xor c d)
    else if i < 60 then Nat.lor (Nat.lor (Nat.land b c) (Nat.land b d)) (Nat.land c d)
    else Nat.xor b (Nat.xor c d)
  let k :=
    if i < 20 then 1518500249
    else if i < 40 then 1859775393
    else if i < 60 then 2400959708
    else 3395469782
  (w32 (rotl 5 a + f + e + k + w), a, rotl 30 b, c, d)

/-- Process one 64-byte chunk against the running state. -/
def sha1Chunk (h : Nat × Nat × Nat × Nat × Nat) (chunk : List Nat) :
    Nat × Nat × Nat × Nat × Nat :=
  let ws := (extendW 64 (toWords chunk).reverse).reverse
  let (h0, h1, h2, h3, h4) := h
  let (a, b, c, d, e) :=
    (((List.range 80).zip ws).foldl sha1Round (h0, h1, h2, h3, h4))
  (w32 (h0 + a), w32 (h1 + b), w32 (h2 + c), w32 (h3 + d), w32 (h4 + e))

/-- The first word `h0` of the SHA-1 digest of a byte sequence. -/
def sha1H0 (m : List Nat) : Nat :=
  ((chunks64 (padMsg m).length (padMsg m)).foldl sha1Chunk
    (1732584193, 4023233417, 2562383102, 271733878, 3285377520)).1

/-- Lowercase hex digit. -/
def hexDigit (n : Nat) : Char :=
  if n < 10 then Char.ofNat (48 + n) else Char.ofNat (87 + n)

/-- Eight lowercase hex characters of a 32-bit word. -/
def hex8 (n : Nat) : String :=
  String.mk ((List.range 8).map (fun i => hexDigit (n / 2 ^ (4 * (7 - i)) % 16)))

/-- `hashlib.sha1(full_text.encode('utf-8')).hexdigest()[:8]`: the first
eight hex characters of the digest are exactly the hex of `h0`. -/
def sha1Hex8 (full_text : String) : String :=
  hex8 (sha1H0 (utf8Bytes full_text))

/-- A spec-index item, as the dict built by `build_item` of
`spec_parser.py` (lines 145-162). -/
structure SpecItem where
  id : String
  title : String
  path : String
  sourceType : String
  references : List String
  hash : String
  deriving DecidableEq

/-- `build_item` of `spec_parser.py`:
`refs = sorted({r for r in REF_PATTERN.findall(full_text) if r != id_})`,
`sha = hashlib.sha1(full_text.encode('utf-8')).hexdigest()[:8]`. -/
def build_item (id_ title pathStr full_text source_type : String) : SpecItem :=
  { id := id_
    title := title
    path := pathStr
    sourceType := source_type
    references :=
      (((refFindall full_text).filter (fun r => r ≠ id_)).dedup).insertionSort (· ≤ ·)
    hash := sha1Hex8 full_text }

/-- Association-list lookup of the first entry with the given key,
modelling a Python dict read. -/
def alookup {α : Type} : List (String × α) → String → Option α
  | [], _ => none
  | p :: rest, k => if p.1 = k then some p.2 else alookup rest k

/-- `duplicate_definition_ids[iid] = duplicate_definition_ids.get(iid, 1) + 1`
on an insertion-ordered mapping. -/
def bumpCount (l : List (String × Nat)) (k : String) : List (String × Nat) :=
  match alookup l k with
  | some c => l.map (fun p => if p.1 = k then (k, c + 1) else p)
  | none => l ++ [(k, 2)]

/-- The dedup state of `main` of `spec_parser.py` (lines 207-223):
`seen` maps each id to the sourceType of its first occurrence, `dedup`
keeps the first occurrence of each id, `dups` is the
`duplicate_definition_ids` mapping. -/
structure DedupState where
  seen : List (String × String)
  dedup : List SpecItem
  dups : List (String × Nat)

/-- One iteration of the dedup loop of `main` (lines 213-223): a repeated
id is skipped, and counted in `dups` only when both the current item and
the first-seen occurrence are definitions. -/
def dedupStep (st : DedupState) (item : SpecItem) : DedupState :=
  match alookup st.seen item.id with
  | some firstType =>
    if item.sourceType = "definition" && firstType = "definition" then
      { st with dups := bumpCount st.dups item.id }
    else st
  | none =>
    { st with
      seen := st.seen ++ [(item.id, item.sourceType)]
      dedup := st.dedup ++ [item] }

/-- The whole dedup loop, from the empty state. -/
def dedupRun (items : List SpecItem) : DedupState :=
  items.foldl dedupStep ⟨[], [], []⟩

/-! ### github-issues-to-traceability-json.py: typing, assembly, metrics -/

/-- Case-insensitive "starts with", the anchored
`re.match(r'^(StR|REQ-F|REQ-NF|ADR|ARC-C|QA-SC|TEST)', title, re.IGNORECASE)`
test for a single alternative. -/
def ciStartsWith (pre s : List Char) : Bool :=
  match ciStrip pre s with
  | some _ => true
  | none => false

/-- Uppercase of an ASCII string (`str.upper()` on the matched group). -/
def upperStr (s : String) : String := String.mk (s.data.map Char.toUpper)

/-- Prefix test on character lists. -/
def listPre : List Char → List Char → Bool
  | [], _ => true
  | _ :: _, [] => false
  | a :: as, b :: bs => a = b && listPre as bs

/-- Infix test on character lists. -/
def listInfix (sub : List Char) : List Char → Bool
  | [] => listPre sub []
  | b :: bs => listPre sub (b :: bs) || listInfix sub bs

/-- Substring test (`sub in s` on Python strings). -/
def strContains (s sub : String) : Bool :=
  listInfix sub.data s.data

/-- Lowercase of a string (`str.lower()`). -/
def lowerStr (s : String) : String := String.mk (s.data.map Char.toLower)

/-- The exact-match label table of `get_requirement_type`
(lines 197-217). -/
def labelMap : List (String × String) :=
  [("type:stakeholder-requirement", "StR"),
   ("type:requirement:functional", "REQ-F"),
   ("type:requirement:non-functional", "REQ-NF"),
   ("type:architecture:decision", "ADR"),
   ("type:architecture:component", "ARC-C"),
   ("type:architecture:quality-scenario", "QA-SC"),
   ("type:test-case", "TEST"),
   ("type:test-plan", "TEST"),
   ("stakeholder-requirement", "StR"),
   ("functional-requirement", "REQ-F"),
   ("non-functional", "REQ-NF"),
   ("architecture-decision", "ADR"),
   ("architecture-component", "ARC-C"),
   ("quality-scenario", "QA-SC"),
   ("test-case", "TEST"),
   ("test-plan", "TEST")]

/-- The per-label substring fallback chain of `get_requirement_type`
(lines 225-239), on the lowercased label. -/
def labelFallback (label : String) : Option String :=
  let ll := lowerStr label
  if strContains ll "stakeholder" then some "StR"
  else if strContains ll "functional" && !strContains ll "non" then some "REQ-F"
  else if strContains ll "non-functional" then some "REQ-NF"
  else if strContains ll "decision" then some "ADR"
  else if strContains ll "component" then some "ARC-C"
  else if strContains ll "quality" || strContains ll "scenario" then some "QA-SC"
  else if strContains ll "test" then some "TEST"
  else none

/-- The label loop of `get_requirement_type`: first label that hits the
exact map or the substring chain wins. -/
def labelsType : List String → Option String
  | [] => none
  | l :: ls =>
    match alookup labelMap l with
    | some t => some t
    | none =>
      match labelFallback l with
      | some t => some t
      | none => labelsType ls

/-- `get_requirement_type(title, labels)` of
`github-issues-to-traceability-json.py` (lines 186-241): title prefix
first (uppercased match), then labels, else `UNKNOWN`. -/
def get_requirement_type (title : String) (labels : List String) : String :=
  match (["StR", "REQ-F", "REQ-NF", "ADR", "ARC-C", "QA-SC", "TEST"]).find?
      (fun p => ciStartsWith p.data title.data) with
  | some p => upperStr p
  | none =>
    match labelsType labels with
    | some t => t
    | none => "UNKNOWN"

/-- A GitHub issue as consumed by the pure part of `main`
(number, title, labels, body).  The id string `"#N"` is represented by
the number `N` itself (`f"#{issue.number}"` is a bijective format). -/
structure Issue where
  number : Nat
  title : String
  labels : List String
  body : String
  deriving DecidableEq

/-- `issue_types` of `main` (lines 320-325): a dict keyed by issue id;
later entries overwrite earlier ones, and a missing key reads as
`UNKNOWN` (`issue_types.get(ref_id, 'UNKNOWN')`). -/
def issueTypeOf (issues : List Issue) (n : Nat) : String :=
  match issues.reverse.find? (fun i => i.number = n) with
  | some i => get_requirement_type i.title i.labels
  | none => "UNKNOWN"

/-- Nat-keyed association lookup (Python dict read), defaulting to `[]`. -/
def nlookupD : List (Nat × List Nat) → Nat → List Nat
  | [], _ => []
  | p :: rest, k => if p.1 = k then p.2 else nlookupD rest k

/-- Whether a key is present (for dict-assignment semantics). -/
def nhasKey : List (Nat × List Nat) → Nat → Bool
  | [], _ => false
  | p :: rest, k => p.1 = k || nhasKey rest k

/-- Dict assignment `d[k] = v`: overwrite in place, else append. -/
def nassign (l : List (Nat × List Nat)) (k : Nat) (v : List Nat) :
    List (Nat × List Nat) :=
  if nhasKey l k then l.map (fun p => if p.1 = k then (k, v) else p)
  else l ++ [(k, v)]

/-- `defaultdict(list)` append `d[k].append(v)`. -/
def nappend (l : List (Nat × List Nat)) (k : Nat) (v : Nat) :
    List (Nat × List Nat) :=
  if nhasKey l k then l.map (fun p => if p.1 = k then (k, p.2 ++ [v]) else p)
  else l ++ [(k, [v])]

/-- The accumulating state of the assembly loop of `main`
(lines 307-406). -/
structure AsmState where
  forward : List (Nat × List Nat)
  backward : List (Nat × List Nat)
  reqs : List Nat
  withAny : Finset Nat
  withAdr : Finset Nat
  withScenario : Finset Nat
  withTest : Finset Nat

/-- The forward-linkage tally of a requirement issue (lines 369-386):
for each referenced issue, by type: ADR/ARC-C, else QA-SC, else TEST. -/
def tagForward (types : Nat → String) (me : Nat) (refs : List Nat)
    (st : AsmState) : AsmState :=
  refs.foldl
    (fun s n =>
      let rt := types n
      if rt = "ADR" || rt = "ARC-C" then { s with withAdr := insert me s.withAdr }
      else if rt = "QA-SC" then { s with withScenario := insert me s.withScenario }
      else if rt = "TEST" then { s with withTest := insert me s.withTest }
      else s)
    st

/-- The backward-linkage tally of an ADR/ARC-C/QA-SC/TEST issue
(lines 388-406): each referenced requirement is credited according to
this issue's type. -/
def tagBackward (types : Nat → String) (myType : String) (refs : List Nat)
    (st : AsmState) : AsmState :=
  refs.foldl
    (fun s n =>
      if types n = "REQ-F" || types n = "REQ-NF" then
        if myType = "ADR" || myType = "ARC-C" then
          { s with withAdr := insert n s.withAdr }
        else if myType = "QA-SC" then
          { s with withScenario := insert n s.withScenario }
        else { s with withTest := insert n s.withTest }
      else s)
    st

/-- One iteration of the assembly loop of `main` (lines 327-406) for one
issue: references are extracted, forward links assigned, backward links
appended, and the metric sets updated by requirement type. -/
def asmStep (types : Nat → String) (st : AsmState) (x : Issue) : AsmState :=
  let refs := extract_issue_links x.body
  let t := get_requirement_type x.title x.labels
  let st1 : AsmState :=
    { st with
      forward := nassign st.forward x.number refs
      backward := refs.foldl (fun b r => nappend b r x.number) st.backward }
  if t = "REQ-F" || t = "REQ-NF" then
    let st2 : AsmState :=
      { st1 with
        reqs := st1.reqs ++ [x.number]
        withAny := if refs.isEmpty then st1.withAny else insert x.number st1.withAny }
    tagForward types x.number refs st2
  else if t = "ADR" || t = "ARC-C" || t = "QA-SC" || t = "TEST" then
    tagBackward types t refs st1
  else st1

/-- The whole assembly loop over the fetched issues. -/
def assemble (issues : List Issue) : AsmState :=
  issues.foldl (asmStep (issueTypeOf issues)) ⟨[], [], [], ∅, ∅, ∅, ∅⟩

/-- One named coverage metric of the issues-path output
(`coverage_pct`, `total`, `linked`). -/
structure MetricEntry where
  coverage_pct : ℚ
  total : Nat
  linked : Nat
  deriving DecidableEq

/-- The `metrics` mapping of the issues-path output (lines 408-433):
`requirement` is always present; the three refined metrics are added
only under `if total_reqs > 0`. -/
structure IssueMetrics where
  requirement : MetricEntry
  requirement_to_ADR : Option MetricEntry
  requirement_to_scenario : Option MetricEntry
  requirement_to_test : Option MetricEntry
  deriving DecidableEq

/-- `main`'s metric computation (lines 408-433) from the assembled
state. -/
def issuesMetrics (issues : List Issue) : IssueMetrics :=
  let st := assemble issues
  let total := st.reqs.length
  { requirement :=
      { coverage_pct := if total = 0 then 0 else (st.withAny.card : ℚ) / total * 100
        total := total
        linked := st.withAny.card }
    requirement_to_ADR :=
      if 0 < total then
        some { coverage_pct := (st.withAdr.card : ℚ) / total * 100
               total := total, linked := st.withAdr.card }
      else none
    requirement_to_scenario :=
      if 0 < total then
        some { coverage_pct := (st.withScenario.card : ℚ) / total * 100
               total := total, linked := st.withScenario.card }
      else none
    requirement_to_test :=
      if 0 < total then
        some { coverage_pct := (st.withTest.card : ℚ) / total * 100
               total := total, linked := st.withTest.card }
      else none }

/-! ### build-traceability.py: markdown-path artifacts and metrics -/

/-- A markdown-path artifact record as built by `scan_markdown`
(lines 73-112): the five per-relation link lists (after the
`sorted(list(set(...)))` dedup of lines 110-112). -/
structure MdArtifact where
  id : String
  traces_to : List Nat
  verified_by : List Nat
  implements : List Nat
  satisfies : List Nat
  refined_by : List Nat
  deriving DecidableEq

/-- The `sorted(list(set(...)))` projection of lines 110-112 applied to
one relation's extracted issue numbers. -/
def dedupSortNat (l : List Nat) : List Nat :=
  (l.dedup).insertionSort (· ≤ ·)

/-- The `traces_to` list of a `scan_markdown` artifact for a given file
content: `TRACES_TO_PATTERN.finditer` then the dedup projection. -/
def scanTracesTo (content : String) : List Nat :=
  dedupSortNat (tracesToFindall content)

/-- Round-half-even to an integer (Python `round`). -/
def roundHE (q : ℚ) : ℤ :=
  let f := ⌊q⌋
  if q - f < 1 / 2 then f
  else if 1 / 2 < q - f then f + 1
  else if 2 ∣ f then f else f + 1

/-- `round(x, 2)` on an exact ratio. -/
def round2 (q : ℚ) : ℚ := (roundHE (q * 100) : ℚ) / 100

/-- One iteration of the counting loop of `calculate_metrics`
(lines 244-266), on the counter quadruple
(`req_with_any_link`, `req_with_adr`, `req_with_scenario`,
`req_with_test`). -/
def mcStep : Nat × Nat × Nat × Nat → MdArtifact → Nat × Nat × Nat × Nat
  | (anyL, adr, scen, test), req =>
    (if 0 < req.traces_to.length || 0 < req.verified_by.length ||
        0 < req.implements.length || 0 < req.satisfies.length ||
        0 < req.refined_by.length then anyL + 1 else anyL,
     if 0 < req.implements.length || 0 < req.satisfies.length then adr + 1 else adr,
     if 0 < req.implements.length then scen + 1 else scen,
     if 0 < req.verified_by.length then test + 1 else test)

/-- The counter quadruple accumulated over `all_reqs`. -/
def metricCounts (all_reqs : List MdArtifact) : Nat × Nat × Nat × Nat :=
  all_reqs.foldl mcStep (0, 0, 0, 0)

/-- The `coverage_pct`-only metrics of the markdown path. -/
structure BuildMetrics where
  requirement : ℚ
  requirement_to_ADR : ℚ
  requirement_to_scenario : ℚ
  requirement_to_test : ℚ
  deriving DecidableEq

/-- `calculate_metrics` of `build-traceability.py` (lines 218-281), on
the functional and non-functional requirement artifact lists: zero
requirements short-circuits to four zero percentages, otherwise each
percentage is `round(count / total * 100, 2)`. -/
def calculate_metrics (fr nfr : List MdArtifact) : BuildMetrics :=
  let total := fr.length + nfr.length
  if total = 0 then
    { requirement := 0, requirement_to_ADR := 0
      requirement_to_scenario := 0, requirement_to_test := 0 }
  else
    let (anyL, adr, scen, test) := metricCounts (fr ++ nfr)
    { requirement := round2 ((anyL : ℚ) / total * 100)
      requirement_to_ADR := round2 ((adr : ℚ) / total * 100)
      requirement_to_scenario := round2 ((scen : ℚ) / total * 100)
      requirement_to_test := round2 ((test : ℚ) / total * 100) }

/-! ### check-spec-numbering.py: numbering-gap analysis -/

/-- The gap computation of `analyze_numbering` (lines 108-122) for one
type+category's observed numbers: `sorted_nums = sorted(numbers)`,
`expected = set(range(min_num, max_num + 1))`,
`missing = expected - numbers`, reported as `sorted(missing)`; an empty
observation set is skipped. -/
def gaps_for (numbers : List Nat) : List Nat :=
  if numbers = [] then []
  else
    let sorted_nums := numbers.insertionSort (· ≤ ·)
    let min_num := sorted_nums.headD 0
    let max_num := sorted_nums.getLastD 0
    let missing :=
      (List.range' min_num (max_num + 1 - min_num)).filter
        (fun n => decide (n ∉ numbers))
    missing.insertionSort (· ≤ ·)

/-! ### github-orphan-check.py: orphan detection -/

/-- `REQUIREMENT_LABELS` of `github-orphan-check.py` (lines 35-42);
`stakeholder-requirement` is deliberately absent. -/
def REQUIREMENT_LABELS : List String :=
  ["functional-requirement", "non-functional", "architecture-decision",
   "architecture-component", "quality-scenario", "test-case"]

/-- The label filter of `fetch_all_requirements` (lines 79-83): keep an
issue iff some label is one of the six requirement labels. -/
def hasReqLabel (labels : List String) : Bool :=
  labels.any (fun l => REQUIREMENT_LABELS.contains l)

/-- `fetch_all_requirements` restricted to its pure filtering step. -/
def fetch_all_requirements (issues : List Issue) : List Issue :=
  issues.filter (fun i => hasReqLabel i.labels)

/-- `find_orphans` of `github-orphan-check.py` (lines 97-116): among the
fetched requirement-labelled issues, those whose body yields no parent
link. -/
def find_orphans (issues : List Issue) : List Issue :=
  (fetch_all_requirements issues).filter
    (fun i => (extract_parent_links i.body).isEmpty)

/-! ### Claim-side (spec-worded) definitions, for counterexamples -/

/-- First-occurrence-order deduplication, the order the spec asserts for
the projected edge sequence (claim side; the code sorts instead). -/
def dedupKeepFirstAux : Nat → List Nat → List Nat
  | 0, _ => []
  | _ + 1, [] => []
  | fuel + 1, x :: xs => x :: dedupKeepFirstAux fuel (xs.filter (fun y => y ≠ x))

def dedupKeepFirst (l : List Nat) : List Nat :=
  dedupKeepFirstAux l.length l

/-- The typed edge list of the issues-path graph: every extracted
reference of every issue, labelled `traces_to` by
`extract_issue_links`. -/
def issueEdges (issues : List Issue) : List (Nat × String × Nat) :=
  (issues.map
    (fun x => (extract_issue_links x.body).map
      (fun n => (x.number, ("traces_to", n))))).flatten

/-- Claim-side numerator predicate of C4, following the spec's words: a
`verified_by`-relation edge to a TEST artifact, or a
`verified_by`-relation edge from a TEST artifact targeting `r`. -/
def specReqToTestNum (issues : List Issue) (r : Nat) : Prop :=
  ∃ e ∈ issueEdges issues,
    (e.1 = r ∧ e.2.1 = "verified_by" ∧ issueTypeOf issues e.2.2 = "TEST") ∨
    (e.2.2 = r ∧ e.2.1 = "verified_by" ∧ issueTypeOf issues e.1 = "TEST")

instance (issues : List Issue) (r : Nat) : Decidable (specReqToTestNum issues r) := by
  unfold specReqToTestNum
  infer_instance

/-- The contribution of one processed issue to the
`requirements_with_test` set: a REQ-F/REQ-NF issue referencing a
TEST-typed issue credits itself, and a TEST-typed issue referencing a
REQ-F/REQ-NF-typed issue credits the referenced requirement. -/
def contribTest (types : Nat → String) (x : Issue) (i : Nat) : Prop :=
  ((get_requirement_type x.title x.labels = "REQ-F"
     ∨ get_requirement_type x.title x.labels = "REQ-NF")
    ∧ i = x.number ∧ ∃ n ∈ extract_issue_links x.body, types n = "TEST")
  ∨ (get_requirement_type x.title x.labels = "TEST"
    ∧ i ∈ extract_issue_links x.body
    ∧ (types i = "REQ-F" ∨ types i = "REQ-NF"))

/-- First-occurrence projection of the dedup loop of `spec_parser.py`:
keep each item whose id has not been seen before, accumulating seen
ids. -/
def firstOccs : List SpecItem → List String → List SpecItem
  | [], _ => []
  | it :: rest, seenIds =>
    if it.id ∈ seenIds then firstOccs rest seenIds
    else it :: firstOccs rest (seenIds ++ [it.id])

/-- The number of definition claims for an identifier among the parsed
items. -/
def countDefs (items : List SpecItem) (i : String) : Nat :=
  items.countP (fun it => it.id = i && it.sourceType = "definition")

/-- The expected content of `duplicate_definition_ids` at one
identifier: present (with the total number of definition claims) exactly
when the first occurrence of the identifier is a definition and at least
two definition claims exist. -/
def dupsSpec (items : List SpecItem) (i : String) : Option Nat :=
  match items.find? (fun it => it.id = i) with
  | some it0 =>
    if it0.sourceType = "definition" ∧ 2 ≤ countDefs items i then
      some (countDefs items i)
    else none
  | none => none

/-! ## Helper lemmas -/

theorem extract_issue_links_mem (body : String) (n : Nat) :
    n ∈ extract_issue_links body ↔ n ∈ hashTokens body := by
  unfold extract_issue_links
  by_cases h : body = ""
  · subst h
    simp [hashTokens, hashScan]
  · simp [h, List.mem_insertionSort, List.mem_dedup]

theorem extract_issue_links_nodup (body : String) :
    (extract_issue_links body).Nodup := by
  unfold extract_issue_links
  by_cases h : body = ""
  · simp [h]
  · simp only [h, if_false]
    exact ((List.perm_insertionSort _ _).nodup_iff).mpr (List.nodup_dedup _)

theorem extract_issue_links_sorted (body : String) :
    (extract_issue_links body).Sorted (· ≤ ·) := by
  unfold extract_issue_links
  by_cases h : body = ""
  · simp [h]
  · simp only [h, if_false]
    exact List.sorted_insertionSort _ _

theorem dedupSortNat_mem (l : List Nat) (n : Nat) :
    n ∈ dedupSortNat l ↔ n ∈ l := by
  simp [dedupSortNat, List.mem_insertionSort, List.mem_dedup]

theorem dedupSortNat_nodup (l : List Nat) : (dedupSortNat l).Nodup :=
  ((List.perm_insertionSort _ _).nodup_iff).mpr (List.nodup_dedup _)

theorem dedupSortNat_sorted (l : List Nat) :
    (dedupSortNat l).Sorted (· ≤ ·) :=
  List.sorted_insertionSort _ _

/-! ### Case-insensitivity machinery for the keyword patterns -/

theorem uint32_le_iff (a b : UInt32) : a ≤ b ↔ a.toNat ≤ b.toNat := by
  rw [UInt32.le_def, BitVec.le_def]
  exact Iff.rfl

theorem char_toNat_inj {a b : Char} (h : a.toNat = b.toNat) : a = b := by
  rw [← Char.ofNat_toNat a, ← Char.ofNat_toNat b, h]

theorem toLower_toNat (c : Char) :
    (Char.toLower c).toNat
      = if 65 ≤ c.toNat ∧ c.toNat ≤ 90 then c.toNat + 32 else c.toNat := by
  simp only [Char.toLower, ge_iff_le]
  by_cases h : 65 ≤ c.toNat ∧ c.toNat ≤ 90
  · rw [if_pos h, if_pos h]
    have hv : (c.toNat + 32).isValidChar := Or.inl (by omega)
    rw [Char.ofNat, dif_pos hv]
    rfl
  · rw [if_neg h, if_neg h]

theorem lowerEq_char_imp {a b : Char} (h : a.toLower = b.toLower) (d : Char)
    (hd : ¬(65 ≤ d.toNat ∧ d.toNat ≤ 90) ∧ ¬(97 ≤ d.toNat ∧ d.toNat ≤ 122)) :
    a = d → b = d := by
  intro had
  have hN := congrArg Char.toNat h
  rw [toLower_toNat, toLower_toNat] at hN
  have ha : a.toNat = d.toNat := congrArg Char.toNat had
  rw [if_neg (ha ▸ hd.1)] at hN
  by_cases hb : 65 ≤ b.toNat ∧ b.toNat ≤ 90
  · rw [if_pos hb] at hN
    exact absurd ⟨by omega, by omega⟩ hd.2
  · rw [if_neg hb] at hN
    exact char_toNat_inj (by omega)

/-- Two characters with equal lowercasings agree on equality with any
character that is neither an uppercase nor a lowercase basic-latin
letter. -/
theorem lowerEq_char_iff {a b : Char} (h : a.toLower = b.toLower) (d : Char)
    (hd : ¬(65 ≤ d.toNat ∧ d.toNat ≤ 90) ∧ ¬(97 ≤ d.toNat ∧ d.toNat ≤ 122)) :
    a = d ↔ b = d :=
  ⟨lowerEq_char_imp h d hd, lowerEq_char_imp h.symm d hd⟩

theorem isDigit_iff (c : Char) :
    c.isDigit = true ↔ (48 ≤ c.toNat ∧ c.toNat ≤ 57) := by
  simp only [Char.isDigit, ge_iff_le, Bool.and_eq_true, decide_eq_true_eq]
  rw [uint32_le_iff, uint32_le_iff]
  exact Iff.rfl

/-- Two characters with equal lowercasings have the same digit status,
and equal digits are equal characters. -/
theorem lowerEq_digit {a b : Char} (h : a.toLower = b.toLower) :
    a.isDigit = b.isDigit ∧ (a.isDigit = true → a = b) := by
  have hN := congrArg Char.toNat h
  rw [toLower_toNat, toLower_toNat] at hN
  by_cases ha : 65 ≤ a.toNat ∧ a.toNat ≤ 90 <;>
    by_cases hb : 65 ≤ b.toNat ∧ b.toNat ≤ 90
  · rw [if_pos ha, if_pos hb] at hN
    constructor
    · rw [Bool.eq_iff_iff, isDigit_iff, isDigit_iff]
      omega
    · intro hdig
      rw [isDigit_iff] at hdig
      omega
  · rw [if_pos ha, if_neg hb] at hN
    constructor
    · rw [Bool.eq_iff_iff, isDigit_iff, isDigit_iff]
      omega
    · intro hdig
      rw [isDigit_iff] at hdig
      omega
  · rw [if_neg ha, if_pos hb] at hN
    constructor
    · rw [Bool.eq_iff_iff, isDigit_iff, isDigit_iff]
      omega
    · intro hdig
      rw [isDigit_iff] at hdig
      omega
  · rw [if_neg ha, if_neg hb] at hN
    exact ⟨by rw [Bool.eq_iff_iff, isDigit_iff, isDigit_iff]; omega,
      fun _ => char_toNat_inj hN⟩

theorem ciStrip_ci (kw : List Char) : ∀ (u v : List Char),
    u.map Char.toLower = v.map Char.toLower →
    ((ciStrip kw u = none ∧ ciStrip kw v = none) ∨
      ∃ ru rv, ciStrip kw u = some ru ∧ ciStrip kw v = some rv
        ∧ ru.map Char.toLower = rv.map Char.toLower) := by
  induction kw with
  | nil => intro u v h; exact Or.inr ⟨u, v, rfl, rfl, h⟩
  | cons l ls ih =>
    intro u v h
    cases u with
    | nil =>
      cases v with
      | nil => exact Or.inl ⟨rfl, rfl⟩
      | cons b bs => simp at h
    | cons a as =>
      cases v with
      | nil => simp at h
      | cons b bs =>
        simp only [List.map_cons, List.cons.injEq] at h
        obtain ⟨h1, h2⟩ := h
        simp only [ciStrip]
        by_cases hl : l.toLower = a.toLower
        · rw [if_pos hl, if_pos (h1 ▸ hl)]
          exact ih as bs h2
        · rw [if_neg hl, if_neg (fun hc => hl (h1 ▸ hc))]
          exact Or.inl ⟨rfl, rfl⟩

/-- `ciStrip` returns the input with the literal's length dropped. -/
theorem ciStrip_drop (kw : List Char) : ∀ (u r : List Char),
    ciStrip kw u = some r → r = u.drop kw.length := by
  induction kw with
  | nil => intro u r h; cases h; rfl
  | cons l ls ih =>
    intro u r h
    cases u with
    | nil => cases h
    | cons a as =>
      simp only [ciStrip] at h
      by_cases hl : l.toLower = a.toLower
      · rw [if_pos hl] at h
        exact ih as r h
      · rw [if_neg hl] at h
        cases h

theorem stripLit_ci (lit : List Char)
    (hlit : ∀ d ∈ lit,
      ¬(65 ≤ d.toNat ∧ d.toNat ≤ 90) ∧ ¬(97 ≤ d.toNat ∧ d.toNat ≤ 122)) :
    ∀ (u v : List Char), u.map Char.toLower = v.map Char.toLower →
    ((stripLit lit u = none ∧ stripLit lit v = none) ∨
      ∃ ru rv, stripLit lit u = some ru ∧ stripLit lit v = some rv
        ∧ ru.map Char.toLower = rv.map Char.toLower) := by
  induction lit with
  | nil => intro u v h; exact Or.inr ⟨u, v, rfl, rfl, h⟩
  | cons l ls ih =>
    intro u v h
    cases u with
    | nil =>
      cases v with
      | nil => exact Or.inl ⟨rfl, rfl⟩
      | cons b bs => simp at h
    | cons a as =>
      cases v with
      | nil => simp at h
      | cons b bs =>
        simp only [List.map_cons, List.cons.injEq] at h
        obtain ⟨h1, h2⟩ := h
        have hiff : a = l ↔ b = l :=
          lowerEq_char_iff h1 l (hlit l (by simp))
        simp only [stripLit]
        by_cases hl : l = a
        · rw [if_pos hl, if_pos (by
            have := hiff.mp hl.symm
            exact this.symm)]
          exact ih (fun d hd => hlit d (by simp [hd])) as bs h2
        · rw [if_neg hl, if_neg (fun hc => hl (by
            have := hiff.mpr hc.symm
            exact this.symm))]
          exact Or.inl ⟨rfl, rfl⟩

theorem takeWhile_digit_eq : ∀ (u v : List Char),
    u.map Char.toLower = v.map Char.toLower →
    u.takeWhile (fun d => d.isDigit) = v.takeWhile (fun d => d.isDigit)
    ∧ (u.dropWhile (fun d => d.isDigit)).map Char.toLower
      = (v.dropWhile (fun d => d.isDigit)).map Char.toLower := by
  intro u
  induction u with
  | nil =>
    intro v h
    cases v with
    | nil => exact ⟨rfl, rfl⟩
    | cons b bs => simp at h
  | cons a as ih =>
    intro v h
    cases v with
    | nil => simp at h
    | cons b bs =>
      simp only [List.map_cons, List.cons.injEq] at h
      obtain ⟨h1, h2⟩ := h
      have hd := lowerEq_digit h1
      by_cases hda : a.isDigit = true
      · have hab : a = b := hd.2 hda
        have hdb : b.isDigit = true := hd.1 ▸ hda
        rw [List.takeWhile_cons_of_pos hda, List.takeWhile_cons_of_pos hdb,
          List.dropWhile_cons_of_pos hda, List.dropWhile_cons_of_pos hdb]
        exact ⟨by rw [hab, (ih bs h2).1], (ih bs h2).2⟩
      · have hdb : ¬(b.isDigit = true) := fun hb => hda (hd.1 ▸ hb)
        rw [List.takeWhile_cons_of_neg (by simpa using hda),
          List.takeWhile_cons_of_neg (by simpa using hdb),
          List.dropWhile_cons_of_neg (by simpa using hda),
          List.dropWhile_cons_of_neg (by simpa using hdb)]
        exact ⟨rfl, by simp [h1, h2]⟩

theorem lazyHash_ci : ∀ (fuel : Nat) (u v : List Char),
    u.map Char.toLower = v.map Char.toLower →
    ((lazyHash fuel u = none ∧ lazyHash fuel v = none) ∨
      ∃ n ru rv, lazyHash fuel u = some (n, ru) ∧ lazyHash fuel v = some (n, rv)
        ∧ ru.map Char.toLower = rv.map Char.toLower) := by
  intro fuel
  induction fuel with
  | zero => intro u v _; exact Or.inl ⟨rfl, rfl⟩
  | succ f ih =>
    intro u v h
    cases u with
    | nil =>
      cases v with
      | nil => exact Or.inl ⟨rfl, rfl⟩
      | cons b bs => simp at h
    | cons a as =>
      cases v with
      | nil => simp at h
      | cons b bs =>
        simp only [List.map_cons, List.cons.injEq] at h
        obtain ⟨h1, h2⟩ := h
        simp only [lazyHash]
        by_cases hnl : a = '\n'
        · rw [if_pos hnl, if_pos ((lowerEq_char_iff h1 '\n' (by decide)).mp hnl)]
          exact Or.inl ⟨rfl, rfl⟩
        · rw [if_neg hnl, if_neg
            (fun hb => hnl ((lowerEq_char_iff h1 '\n' (by decide)).mpr hb))]
          by_cases hh : a = '#'
          · rw [if_pos hh, if_pos ((lowerEq_char_iff h1 '#' (by decide)).mp hh)]
            rw [List.span_eq_take_drop, List.span_eq_take_drop]
            have htd := takeWhile_digit_eq as bs h2
            cases hts : as.takeWhile (fun d => d.isDigit) with
            | nil =>
              rw [hts] at htd
              rw [← htd.1]
              exact ih as bs h2
            | cons d ds =>
              rw [hts] at htd
              rw [← htd.1]
              exact Or.inr ⟨digitsToNat (d :: ds), _, _, rfl, rfl, htd.2⟩
          · rw [if_neg hh, if_neg
              (fun hb => hh ((lowerEq_char_iff h1 '#' (by decide)).mpr hb))]
            exact ih as bs h2

theorem gapToColon_ci : ∀ (fuel : Nat) (u v : List Char),
    u.map Char.toLower = v.map Char.toLower →
    ((gapToColon fuel u = none ∧ gapToColon fuel v = none) ∨
      ∃ ru rv, gapToColon fuel u = some ru ∧ gapToColon fuel v = some rv
        ∧ ru.map Char.toLower = rv.map Char.toLower) := by
  intro fuel
  induction fuel with
  | zero => intro u v _; exact Or.inl ⟨rfl, rfl⟩
  | succ f ih =>
    intro u v h
    cases u with
    | nil =>
      cases v with
      | nil => exact Or.inl ⟨rfl, rfl⟩
      | cons b bs => simp at h
    | cons a as =>
      cases v with
      | nil => simp at h
      | cons b bs =>
        have h' := h
        simp only [List.map_cons, List.cons.injEq] at h'
        obtain ⟨h1, h2⟩ := h'
        simp only [gapToColon]
        by_cases hnl : a = '\n'
        · rw [if_pos hnl, if_pos ((lowerEq_char_iff h1 '\n' (by decide)).mp hnl)]
          exact Or.inl ⟨rfl, rfl⟩
        · rw [if_neg hnl, if_neg
            (fun hb => hnl ((lowerEq_char_iff h1 '\n' (by decide)).mpr hb))]
          rcases stripLit_ci ('*' :: '*' :: ':' :: []) (by decide)
              (a :: as) (b :: bs) h with ⟨hn1, hn2⟩ | ⟨ru, rv, hs1, hs2, hrel⟩
          · rw [hn1, hn2]
            exact ih as bs h2
          · rw [hs1, hs2]
            exact Or.inr ⟨ru, rv, rfl, rfl, hrel⟩

theorem gapToColon_none : ∀ (fuel : Nat) (u : List Char),
    (∀ i, stripLit ('*' :: '*' :: ':' :: []) (u.drop i) = none) →
    gapToColon fuel u = none := by
  intro fuel
  induction fuel with
  | zero => intro u _; rfl
  | succ f ih =>
    intro u h
    cases u with
    | nil => rfl
    | cons c rest =>
      by_cases hc : c = '\n'
      · simp only [gapToColon, if_pos hc]
      · have h0 : stripLit ('*' :: '*' :: ':' :: []) (c :: rest) = none := by
          have := h 0
          simpa using this
        simp only [gapToColon, if_neg hc, h0]
        exact ih rest (fun i => by
          have := h (i + 1)
          rwa [List.drop_succ_cons] at this)

theorem kwScan_ci (kw : List Char) : ∀ (fuel : Nat) (u v : List Char),
    u.map Char.toLower = v.map Char.toLower →
    kwScan kw fuel u = kwScan kw fuel v := by
  intro fuel
  induction fuel with
  | zero => intro u v _; rfl
  | succ f ih =>
    intro u v h
    cases u with
    | nil =>
      cases v with
      | nil => rfl
      | cons b bs => simp at h
    | cons a as =>
      cases v with
      | nil => simp at h
      | cons b bs =>
        have h' := h
        simp only [List.map_cons, List.cons.injEq] at h'
        obtain ⟨h1, h2⟩ := h'
        rcases ciStrip_ci kw (a :: as) (b :: bs) h with
          ⟨hn1, hn2⟩ | ⟨ru, rv, hs1, hs2, hrel⟩
        · simp only [kwScan, hn1, hn2]
          exact ih as bs h2
        · have hlen : rv.length = ru.length := by
            have := congrArg List.length hrel
            simpa using this.symm
          simp only [kwScan, hs1, hs2, hlen]
          rcases lazyHash_ci ru.length ru rv hrel with
            ⟨hl1, hl2⟩ | ⟨n, ru2, rv2, hl1, hl2, hrel2⟩
          · simp only [hl1, hl2]
            exact ih as bs h2
          · simp only [hl1, hl2]
            rw [ih ru2 rv2 hrel2]

theorem kwGapScan_ci (kw : List Char) : ∀ (fuel : Nat) (u v : List Char),
    u.map Char.toLower = v.map Char.toLower →
    kwGapScan kw fuel u = kwGapScan kw fuel v := by
  intro fuel
  induction fuel with
  | zero => intro u v _; rfl
  | succ f ih =>
    intro u v h
    cases u with
    | nil =>
      cases v with
      | nil => rfl
      | cons b bs => simp at h
    | cons a as =>
      cases v with
      | nil => simp at h
      | cons b bs =>
        have h' := h
        simp only [List.map_cons, List.cons.injEq] at h'
        obtain ⟨h1, h2⟩ := h'
        rcases ciStrip_ci ('*' :: '*' :: kw) (a :: as) (b :: bs) h with
          ⟨hn1, hn2⟩ | ⟨ru, rv, hs1, hs2, hrel⟩
        · simp only [kwGapScan, hn1, hn2]
          exact ih as bs h2
        · have hlen : rv.length = ru.length := by
            have := congrArg List.length hrel
            simpa using this.symm
          simp only [kwGapScan, hs1, hs2, hlen]
          rcases gapToColon_ci ru.length ru rv hrel with
            ⟨hg1, hg2⟩ | ⟨cu, cv, hg1, hg2, hrelc⟩
          · simp only [hg1, hg2]
            exact ih as bs h2
          · have hlenc : cv.length = cu.length := by
              have := congrArg List.length hrelc
              simpa using this.symm
            simp only [hg1, hg2, hlenc]
            rcases lazyHash_ci cu.length cu cv hrelc with
              ⟨hl1, hl2⟩ | ⟨n, ru2, rv2, hl1, hl2, hrel2⟩
            · simp only [hl1, hl2]
              exact ih as bs h2
            · simp only [hl1, hl2]
              rw [ih ru2 rv2 hrel2]

theorem kwScan_requires_header (kw : List Char) :
    ∀ (fuel : Nat) (s : List Char),
    (∀ i, ciStrip kw (s.drop i) = none) →
    kwScan kw fuel s = [] := by
  intro fuel
  induction fuel with
  | zero => intro s _; rfl
  | succ f ih =>
    intro s h
    cases s with
    | nil => rfl
    | cons c rest =>
      have h0 : ciStrip kw (c :: rest) = none := by
        have := h 0
        simpa using this
      simp only [kwScan, h0]
      exact ih rest (fun i => by
        have := h (i + 1)
        rwa [List.drop_succ_cons] at this)

theorem kwGapScan_requires_open (kw : List Char) :
    ∀ (fuel : Nat) (s : List Char),
    (∀ i, ciStrip ('*' :: '*' :: kw) (s.drop i) = none) →
    kwGapScan kw fuel s = [] := by
  intro fuel
  induction fuel with
  | zero => intro s _; rfl
  | succ f ih =>
    intro s h
    cases s with
    | nil => rfl
    | cons c rest =>
      have h0 : ciStrip ('*' :: '*' :: kw) (c :: rest) = none := by
        have := h 0
        simpa using this
      simp only [kwGapScan, h0]
      exact ih rest (fun i => by
        have := h (i + 1)
        rwa [List.drop_succ_cons] at this)

theorem kwGapScan_requires_colon (kw : List Char) :
    ∀ (fuel : Nat) (s : List Char),
    (∀ i, stripLit ('*' :: '*' :: ':' :: []) (s.drop i) = none) →
    kwGapScan kw fuel s = [] := by
  intro fuel
  induction fuel with
  | zero => intro s _; rfl
  | succ f ih =>
    intro s h
    cases s with
    | nil => rfl
    | cons c rest =>
      have hshift : ∀ i, stripLit ('*' :: '*' :: ':' :: []) (rest.drop i) = none := by
        intro i
        have := h (i + 1)
        rwa [List.drop_succ_cons] at this
      cases hstrip : ciStrip ('*' :: '*' :: kw) (c :: rest) with
      | none =>
        simp only [kwGapScan, hstrip]
        exact ih rest hshift
      | some afterKw =>
        have hdrop := ciStrip_drop ('*' :: '*' :: kw) (c :: rest) afterKw hstrip
        have hgap : gapToColon afterKw.length afterKw = none := by
          apply gapToColon_none
          intro i
          rw [hdrop, List.drop_drop]
          exact h _
        simp only [kwGapScan, hstrip, hgap]
        exact ih rest hshift

/-- Any uncased position of a concrete content has no header match as
soon as every in-range suffix was checked: beyond the length the text
is empty and a non-empty literal cannot be stripped from it. -/
theorem no_ciStrip_of_short (kw s : List Char) (hkw : kw ≠ [])
    (hchecked : ∀ i ∈ List.range s.length, ciStrip kw (s.drop i) = none) :
    ∀ i, ciStrip kw (s.drop i) = none := by
  intro i
  by_cases hi : i < s.length
  · exact hchecked i (List.mem_range.mpr hi)
  · rw [List.drop_eq_nil_of_le (by omega)]
    cases kw with
    | nil => exact absurd rfl hkw
    | cons l ls => rfl

/-! ## The ten claims -/

/-- C3: for every issue-style blob, the extractor emits a `traces_to`
edge for every distinct `#N` token occurring anywhere in the body, with
no relation keyword required: membership in the extracted list is
exactly membership in the token list, the result carries no duplicates,
and on a body containing `Traces to: #5` plus a bare `#5` elsewhere the
extraction yields an edge for `#5` and for every other distinct numeric
token. -/
theorem claim_C3_issue_extractor_keyword_free :
    (∀ (body : String) (n : Nat),
      n ∈ extract_issue_links body ↔ n ∈ hashTokens body)
    ∧ (∀ body : String, (extract_issue_links body).Nodup)
    ∧ extract_issue_links "Traces to: #5\nAlso a bare #5 and #9" = [5, 9] :=
  ⟨extract_issue_links_mem, extract_issue_links_nodup, by decide⟩

/-- C6 counterexample: on the body `see #7 then #3 and #7` the projected
sequence is `[3, 7]` (ascending numeric order), not the first-occurrence
insertion order `[7, 3]` the claim asserts. -/
theorem claim_C6_counterexample :
    extract_issue_links "see #7 then #3 and #7" = [3, 7]
    ∧ dedupKeepFirst (hashTokens "see #7 then #3 and #7") = [7, 3]
    ∧ ([3, 7] : List Nat) ≠ [7, 3] := by
  refine ⟨by decide, by decide, by decide⟩

/-- C6 amended: duplicate triples are collapsed to a single edge before
projection (no duplicates survive, membership is preserved), but in both
extraction paths the surviving edges are listed in ascending numeric
order of the referenced issue number, not in first-occurrence insertion
order. -/
theorem claim_C6_amended :
    (∀ body : String, (extract_issue_links body).Nodup
      ∧ (extract_issue_links body).Sorted (· ≤ ·)
      ∧ ∀ n, n ∈ extract_issue_links body ↔ n ∈ hashTokens body)
    ∧ (∀ content : String, (scanTracesTo content).Nodup
      ∧ (scanTracesTo content).Sorted (· ≤ ·)
      ∧ ∀ n, n ∈ scanTracesTo content ↔ n ∈ tracesToFindall content) :=
  ⟨fun body =>
    ⟨extract_issue_links_nodup body, extract_issue_links_sorted body,
      extract_issue_links_mem body⟩,
   fun _ =>
    ⟨dedupSortNat_nodup _, dedupSortNat_sorted _, dedupSortNat_mem _⟩⟩

/-- C8 counterexample: the markdown-path pattern does not match the
keyword without bold markup (`Traces to: #5` yields no edge), and the
orphan-check pattern matches neither the bold form nor the fully
uppercased form — so it is not true that every of these surface forms
produces the typed edge. -/
theorem claim_C8_counterexample :
    tracesToFindall "Traces to: #5" = []
    ∧ extract_parent_links "**Traces to**: #5" = []
    ∧ extract_parent_links "TRACES TO: #5" = [] := by
  refine ⟨by decide, by decide, by decide⟩

/-- C8 amended: every markdown-path relation scanner (`TRACES_TO_PATTERN`
and its four siblings) is invariant under arbitrary letter-case changes
of the scanned text, but fires only where the full bolded,
colon-carrying header occurs — `kwScan` (traces-to, verified-by,
implements) returns nothing when no suffix of the text starts with the
`**<kw>**:` header, and `kwGapScan` (satisfies, refined-by) returns
nothing when either the opening `**<kw>` or the closing `**:` occurs
nowhere; the orphan-check pattern is case-flexible only in the keyword's
first letter (`T` and `t` interchangeable, any other first character
never matches at that position), requires the literal `race` to follow,
makes its colon optional, is defeated by bold markup after the keyword,
and rejects the fully uppercased keyword; concrete instances of all
five markdown patterns and of the orphan pattern exhibit both the
acceptance and the rejection sides. -/
theorem claim_C8_amended :
    (∀ (kw : List Char) (fuel : Nat) (u v : List Char),
      u.map Char.toLower = v.map Char.toLower →
      kwScan kw fuel u = kwScan kw fuel v)
    ∧ (∀ (kw : List Char) (fuel : Nat) (u v : List Char),
      u.map Char.toLower = v.map Char.toLower →
      kwGapScan kw fuel u = kwGapScan kw fuel v)
    ∧ (∀ (kw : List Char) (fuel : Nat) (s : List Char),
      (∀ i, ciStrip kw (s.drop i) = none) → kwScan kw fuel s = [])
    ∧ (∀ (kw : List Char) (fuel : Nat) (s : List Char),
      (∀ i, ciStrip ('*' :: '*' :: kw) (s.drop i) = none) →
      kwGapScan kw fuel s = [])
    ∧ (∀ (kw : List Char) (fuel : Nat) (s : List Char),
      (∀ i, stripLit ('*' :: '*' :: ':' :: []) (s.drop i) = none) →
      kwGapScan kw fuel s = [])
    ∧ (∀ s : List Char, parentAt ('T' :: s) = parentAt ('t' :: s))
    ∧ (∀ (c : Char) (s : List Char), ¬c = 'T' → ¬c = 't' →
      parentAt (c :: s) = none)
    ∧ (∀ (c : Char) (s : List Char), stripLit "race".data s = none →
      parentAt (c :: s) = none)
    ∧ (∀ s : List Char,
      parentAt ("Traces to: #".data ++ s) = parentAt ("Traces to #".data ++ s))
    ∧ (∀ s : List Char, parentAt ("Traces to**: #".data ++ s) = none)
    ∧ (∀ s : List Char, parentAt ("TRACES TO: #".data ++ s) = none)
    ∧ tracesToFindall "**tRaCeS tO**: #5" = [5]
    ∧ verifiedByFindall "**VERIFIED BY**: #3" = [3]
    ∧ verifiedByFindall "Verified by: #3" = []
    ∧ implementsFindall "**implements**:#11" = [11]
    ∧ satisfiesFindall "**SATISFIES ADR**:#12" = [12]
    ∧ satisfiesFindall "Satisfies: #4" = []
    ∧ refinedByFindall "**refined by**: #2" = [2]
    ∧ refinedByFindall "Refined by: #2" = []
    ∧ extract_parent_links "Trace to:#4" = [4]
    ∧ extract_parent_links "traces  to: #9" = [9] := by
  refine ⟨kwScan_ci, kwGapScan_ci, kwScan_requires_header,
    kwGapScan_requires_open, kwGapScan_requires_colon,
    fun _ => rfl, ?_, ?_, fun _ => rfl, fun _ => rfl, fun _ => rfl,
    by decide, by decide, by decide, by decide, by decide, by decide,
    by decide, by decide, by decide, by decide⟩
  · intro c s hT ht
    simp [parentAt, hT, ht]
  · intro c s hs
    by_cases hc : (c = 'T' || c = 't') = true
    · simp [parentAt, hc, hs]
    · simp [parentAt, hc]

/-- C8 witness: the case-invariance conjunct applied at a concretely
re-cased traces-to blob, and the header-requirement conjunct applied at
a concrete unbolded blob, every hypothesis discharged by evaluation. -/
theorem claim_C8_amended_witness :
    kwScan "**Traces to**:".data 17 "**TRACES TO**: #7".data
      = kwScan "**Traces to**:".data 17 "**tRaCeS tO**: #7".data
    ∧ kwScan "**Traces to**:".data 13 "Traces to: #5".data = [] :=
  ⟨claim_C8_amended.1 "**Traces to**:".data 17 "**TRACES TO**: #7".data
      "**tRaCeS tO**: #7".data (by decide),
   claim_C8_amended.2.2.1 "**Traces to**:".data 13 "Traces to: #5".data
      (no_ciStrip_of_short "**Traces to**:".data "Traces to: #5".data
        (by decide) (by decide))⟩

/-- C9 counterexample: an issue labelled `test-case` (type TEST, not
StR) whose body is `Verified by: #7` has an outgoing edge (the
issue-path extractor yields `#7`), yet `find_orphans` reports it — so
"orphan iff not StR and zero outgoing edges of any relation" fails. -/
theorem claim_C9_counterexample :
    find_orphans [⟨3, "TEST-001: x", ["test-case"], "Verified by: #7"⟩]
      = [⟨3, "TEST-001: x", ["test-case"], "Verified by: #7"⟩]
    ∧ extract_issue_links "Verified by: #7" = [7]
    ∧ get_requirement_type "TEST-001: x" ["test-case"] ≠ "StR" := by
  refine ⟨by decide, by decide, by decide⟩

/-- C9 amended: an issue is reported as an orphan iff it carries at
least one of the six requirement labels (`stakeholder-requirement` is
not among them, so StR issues are never reported) and its body contains
zero `Traces to: #N` keyword links; other outgoing references do not
prevent orphan status. -/
theorem claim_C9_amended :
    (∀ (issues : List Issue) (i : Issue),
      i ∈ find_orphans issues ↔
        i ∈ issues ∧ hasReqLabel i.labels = true ∧ extract_parent_links i.body = [])
    ∧ (∀ (issues : List Issue) (i : Issue),
        i ∈ issues → i.labels = ["stakeholder-requirement"] →
        i ∉ find_orphans issues) := by
  constructor
  · intro issues i
    simp only [find_orphans, fetch_all_requirements, List.filter_filter,
      List.mem_filter, Bool.and_eq_true, List.isEmpty_iff]
    tauto
  · intro issues i _ hlab hmem
    have h : hasReqLabel i.labels = true :=
      (List.mem_filter.mp (List.mem_filter.mp hmem).1).2
    rw [hlab] at h
    exact absurd h (by decide)

theorem headD_mem {l : List ℕ} (h : l ≠ []) : l.headD 0 ∈ l := by
  cases l with
  | nil => exact absurd rfl h
  | cons x xs => simp

theorem sorted_headD_le {l : List ℕ} (hs : l.Sorted (· ≤ ·)) {a : ℕ}
    (ha : a ∈ l) : l.headD 0 ≤ a := by
  cases l with
  | nil => cases ha
  | cons x xs =>
    rcases List.mem_cons.mp ha with rfl | hmem
    · simp
    · simpa using (List.sorted_cons.mp hs).1 a hmem

theorem sorted_le_getLast {l : List ℕ} (hs : l.Sorted (· ≤ ·)) (hne : l ≠ []) :
    ∀ a ∈ l, a ≤ l.getLast hne := by
  induction l with
  | nil => exact absurd rfl hne
  | cons x xs ih =>
    intro a ha
    cases xs with
    | nil =>
      rcases List.mem_cons.mp ha with rfl | hmem
      · simp [List.getLast]
      · cases hmem
    | cons y ys =>
      rw [List.getLast_cons (by simp)]
      rcases List.mem_cons.mp ha with rfl | hmem
      · exact le_trans ((List.sorted_cons.mp hs).1 _ (List.getLast_mem _))
          (le_refl _)
      · exact ih (List.sorted_cons.mp hs).2 (by simp) a hmem

theorem getLastD_of_ne_nil {l : List ℕ} (h : l ≠ []) :
    l.getLastD 0 = l.getLast h := by
  rw [List.getLastD_eq_getLast?, List.getLast?_eq_getLast l h]
  rfl

theorem gaps_for_mem (numbers : List ℕ) (h : numbers ≠ []) (n : ℕ) :
    n ∈ gaps_for numbers ↔
      ((∃ a ∈ numbers, a ≤ n) ∧ (∃ b ∈ numbers, n ≤ b) ∧ n ∉ numbers) := by
  have hperm := List.perm_insertionSort (· ≤ ·) numbers
  have hsort := List.sorted_insertionSort (· ≤ ·) numbers
  set s := numbers.insertionSort (· ≤ ·) with hsdef
  have hmem : ∀ m : ℕ, m ∈ s ↔ m ∈ numbers := fun m => hperm.mem_iff
  have hne : s ≠ [] := by
    intro hnil
    exact h (List.Perm.eq_nil (hnil ▸ hperm.symm))
  have hminmem : s.headD 0 ∈ numbers := (hmem _).mp (headD_mem hne)
  have hmaxmem : s.getLastD 0 ∈ numbers := by
    rw [getLastD_of_ne_nil hne]
    exact (hmem _).mp (List.getLast_mem hne)
  have hminle : ∀ a ∈ numbers, s.headD 0 ≤ a := fun a ha =>
    sorted_headD_le hsort ((hmem a).mpr ha)
  have hlemax : ∀ a ∈ numbers, a ≤ s.getLastD 0 := fun a ha => by
    rw [getLastD_of_ne_nil hne]
    exact sorted_le_getLast hsort hne a ((hmem a).mpr ha)
  have hminmax : s.headD 0 ≤ s.getLastD 0 := hminle _ hmaxmem
  constructor
  · intro hn
    have hn' : n ∈ (List.range' (s.headD 0) (s.getLastD 0 + 1 - s.headD 0)).filter
        (fun m => decide (m ∉ numbers)) := by
      have hx := hn
      unfold gaps_for at hx
      rw [if_neg h, ← hsdef] at hx
      exact (List.mem_insertionSort _).mp hx
    have hrange := (List.mem_filter.mp hn').1
    have hnot : n ∉ numbers := by
      have := (List.mem_filter.mp hn').2
      simpa using this
    rw [List.mem_range'_1] at hrange
    refine ⟨⟨s.headD 0, hminmem, hrange.1⟩, ⟨s.getLastD 0, hmaxmem, ?_⟩, hnot⟩
    omega
  · rintro ⟨⟨a, ha, han⟩, ⟨b, hb, hnb⟩, hnot⟩
    unfold gaps_for
    rw [if_neg h, ← hsdef, List.mem_insertionSort, List.mem_filter]
    constructor
    · rw [List.mem_range'_1]
      have h1 : s.headD 0 ≤ n := le_trans (hminle a ha) han
      have h2 : n ≤ s.getLastD 0 := le_trans hnb (hlemax b hb)
      omega
    · simpa using hnot

theorem gaps_for_singleton (x : ℕ) : gaps_for [x] = [] := by
  have h1 : x + 1 - x = 1 := by omega
  simp [gaps_for, List.insertionSort, List.orderedInsert, h1, List.range']

/-- C5: for every non-empty set of observed numbers of one
type+category, gap detection returns exactly the integers in the closed
range from the minimum to the maximum that are absent from the observed
set (membership characterised by the existence of lower and upper
observed bounds), in ascending order; a singleton observation yields
zero gaps, and the set with numbers 1, 2, 4 yields exactly the gap 3. -/
theorem claim_C5_numbering_gaps (numbers : List ℕ) (h : numbers ≠ []) :
    (∀ n, n ∈ gaps_for numbers ↔
      ((∃ a ∈ numbers, a ≤ n) ∧ (∃ b ∈ numbers, n ≤ b) ∧ n ∉ numbers))
    ∧ (gaps_for numbers).Sorted (· ≤ ·)
    ∧ (∀ x, gaps_for [x] = [])
    ∧ gaps_for [1, 2, 4] = [3] := by
  refine ⟨gaps_for_mem numbers h, ?_, gaps_for_singleton, by decide⟩
  unfold gaps_for
  rw [if_neg h]
  exact List.sorted_insertionSort _ _

/-- C5 witness: the characterisation applied to the concrete observed
set with numbers 1, 2, 4, discharging the non-emptiness hypothesis. -/
theorem claim_C5_numbering_gaps_witness :
    ([1, 2, 4] : List ℕ) ≠ []
    ∧ (3 ∈ gaps_for [1, 2, 4] ↔
      ((∃ a ∈ ([1, 2, 4] : List ℕ), a ≤ 3)
       ∧ (∃ b ∈ ([1, 2, 4] : List ℕ), 3 ≤ b) ∧ 3 ∉ ([1, 2, 4] : List ℕ))) :=
  ⟨by decide, (claim_C5_numbering_gaps [1, 2, 4] (by decide)).1 3⟩

theorem build_item_references_mem (id_ title pathStr full_text st r : String) :
    r ∈ (build_item id_ title pathStr full_text st).references ↔
      (r ∈ refFindall full_text ∧ r ≠ id_) := by
  simp [build_item, List.mem_insertionSort, List.mem_dedup, List.mem_filter]

/-- C10: every item built by `build_item` has a `references` field that
is sorted, duplicate-free, drawn exactly from the identifiers
`REF_PATTERN` finds in the blob's full text minus the item's own
identifier (self-references excluded), and a `hash` field that depends
only on the blob's text — not on the id, title, path or source type. -/
theorem claim_C10_build_item_invariants :
    (∀ id_ title pathStr full_text st : String,
      ((build_item id_ title pathStr full_text st).references.Sorted (· ≤ ·)
       ∧ (build_item id_ title pathStr full_text st).references.Nodup
       ∧ id_ ∉ (build_item id_ title pathStr full_text st).references
       ∧ ∀ r, r ∈ (build_item id_ title pathStr full_text st).references ↔
           (r ∈ refFindall full_text ∧ r ≠ id_)))
    ∧ (∀ i1 t1 p1 s1 i2 t2 p2 s2 full_text : String,
        (build_item i1 t1 p1 full_text s1).hash
          = (build_item i2 t2 p2 full_text s2).hash) := by
  constructor
  · intro id_ title pathStr full_text st
    refine ⟨List.sorted_insertionSort _ _,
      ((List.perm_insertionSort _ _).nodup_iff).mpr (List.nodup_dedup _), ?_, ?_⟩
    · intro hmem
      exact ((build_item_references_mem id_ title pathStr full_text st id_).mp hmem).2 rfl
    · exact build_item_references_mem id_ title pathStr full_text st
  · intro i1 t1 p1 s1 i2 t2 p2 s2 full_text
    rfl

theorem mcStep_fold_test (l : List MdArtifact) :
    ∀ acc : Nat × Nat × Nat × Nat,
      (l.foldl mcStep acc).2.2.2
        = acc.2.2.2 + l.countP (fun r => 0 < r.verified_by.length) := by
  induction l with
  | nil => simp
  | cons x xs ih =>
    intro acc
    obtain ⟨a, b, c, d⟩ := acc
    rw [List.foldl_cons, ih, List.countP_cons]
    simp only [mcStep]
    by_cases hx : 0 < x.verified_by.length <;> simp [hx] <;> omega

theorem tagForward_withTest_mem (types : Nat → String) (me : Nat)
    (refs : List Nat) (st : AsmState) (i : Nat) :
    i ∈ (tagForward types me refs st).withTest ↔
      i ∈ st.withTest ∨ (i = me ∧ ∃ n ∈ refs, types n = "TEST") := by
  induction refs generalizing st with
  | nil => simp [tagForward]
  | cons r rs ih =>
    have hstep : tagForward types me (r :: rs) st
        = tagForward types me rs
          (let rt := types r
           if rt = "ADR" || rt = "ARC-C" then
             { st with withAdr := insert me st.withAdr }
           else if rt = "QA-SC" then
             { st with withScenario := insert me st.withScenario }
           else if rt = "TEST" then
             { st with withTest := insert me st.withTest }
           else st) := rfl
    rw [hstep, ih]
    by_cases hA : types r = "ADR" <;> by_cases hC : types r = "ARC-C" <;>
      by_cases hQ : types r = "QA-SC" <;> by_cases hT : types r = "TEST" <;>
      simp [hA, hC, hQ, hT, Finset.mem_insert] <;> tauto

theorem tagBackward_withTest_mem (types : Nat → String) (myType : String)
    (refs : List Nat) (st : AsmState) (i : Nat) :
    i ∈ (tagBackward types myType refs st).withTest ↔
      i ∈ st.withTest ∨
        (myType ≠ "ADR" ∧ myType ≠ "ARC-C" ∧ myType ≠ "QA-SC"
         ∧ ∃ n ∈ refs, (types n = "REQ-F" ∨ types n = "REQ-NF") ∧ i = n) := by
  induction refs generalizing st with
  | nil => simp [tagBackward]
  | cons r rs ih =>
    have hstep : tagBackward types myType (r :: rs) st
        = tagBackward types myType rs
          (if types r = "REQ-F" || types r = "REQ-NF" then
             if myType = "ADR" || myType = "ARC-C" then
               { st with withAdr := insert r st.withAdr }
             else if myType = "QA-SC" then
               { st with withScenario := insert r st.withScenario }
             else { st with withTest := insert r st.withTest }
           else st) := rfl
    rw [hstep, ih]
    by_cases hr1 : types r = "REQ-F" <;> by_cases hr2 : types r = "REQ-NF" <;>
      by_cases hmA : myType = "ADR" <;> by_cases hmC : myType = "ARC-C" <;>
      by_cases hmQ : myType = "QA-SC" <;>
      simp [hr1, hr2, hmA, hmC, hmQ, Finset.mem_insert] <;> tauto

theorem exists_mem_eq_iff (refs : List Nat) (P : Nat → Prop) (i : Nat) :
    (∃ n ∈ refs, P n ∧ i = n) ↔ (i ∈ refs ∧ P i) := by
  constructor
  · rintro ⟨n, hn, hp, rfl⟩
    exact ⟨hn, hp⟩
  · rintro ⟨h1, h2⟩
    exact ⟨i, h1, h2, rfl⟩

theorem asmStep_withTest_mem (types : Nat → String) (st : AsmState)
    (x : Issue) (i : Nat) :
    i ∈ (asmStep types st x).withTest ↔ i ∈ st.withTest ∨ contribTest types x i := by
  unfold asmStep contribTest
  by_cases h1 : get_requirement_type x.title x.labels = "REQ-F" <;>
    by_cases h2 : get_requirement_type x.title x.labels = "REQ-NF" <;>
    by_cases h3 : get_requirement_type x.title x.labels = "ADR" <;>
    by_cases h4 : get_requirement_type x.title x.labels = "ARC-C" <;>
    by_cases h5 : get_requirement_type x.title x.labels = "QA-SC" <;>
    by_cases h6 : get_requirement_type x.title x.labels = "TEST" <;>
    simp [h1, h2, h3, h4, h5, h6, tagForward_withTest_mem,
      tagBackward_withTest_mem, exists_mem_eq_iff]

theorem foldl_withTest_mem (types : Nat → String) (l : List Issue) :
    ∀ (st : AsmState) (i : Nat),
      i ∈ (l.foldl (asmStep types) st).withTest ↔
        i ∈ st.withTest ∨ ∃ x ∈ l, contribTest types x i := by
  induction l with
  | nil => simp
  | cons y ys ih =>
    intro st i
    rw [List.foldl_cons, ih, asmStep_withTest_mem]
    simp only [List.mem_cons, exists_eq_or_imp]
    tauto

theorem assemble_withTest_mem (issues : List Issue) (i : Nat) :
    i ∈ (assemble issues).withTest ↔
      ∃ x ∈ issues, contribTest (issueTypeOf issues) x i := by
  rw [assemble, foldl_withTest_mem]
  simp

/-- C4 counterexample: issue 1 (`REQ-F`) whose body contains only the
bare reference `#2` to issue 2 (`TEST`) is placed in the
`requirements_with_test` numerator by the code, yet the graph contains
no `verified_by`-relation edge at all (every extracted edge is
`traces_to`), so the claimed "if and only if" fails. -/
theorem claim_C4_counterexample :
    1 ∈ (assemble [⟨1, "REQ-F-001: A", [], "ref #2"⟩,
          ⟨2, "TEST-001: B", [], ""⟩]).withTest
    ∧ ¬ specReqToTestNum [⟨1, "REQ-F-001: A", [], "ref #2"⟩,
          ⟨2, "TEST-001: B", [], ""⟩] 1 := by
  refine ⟨by decide, by decide⟩

/-- C4 amended: in the markdown-path metric a requirement counts toward
the `requirement_to_test` numerator iff its `verified_by` keyword list
is non-empty — the target's type is never checked and incoming edges are
not considered; in the issues-path metric a requirement counts iff it
references (by any extracted cross-reference, all of which are labelled
`traces_to`) an issue typed TEST, or an issue typed TEST references
it. -/
theorem claim_C4_amended :
    (∀ all_reqs : List MdArtifact,
      (metricCounts all_reqs).2.2.2
        = all_reqs.countP (fun r => 0 < r.verified_by.length))
    ∧ (∀ (issues : List Issue) (i : Nat),
        i ∈ (assemble issues).withTest ↔
          ∃ x ∈ issues, contribTest (issueTypeOf issues) x i) := by
  constructor
  · intro all_reqs
    rw [metricCounts, mcStep_fold_test]
    simp
  · exact assemble_withTest_mem

theorem nlookupD_of_absent {l : List (Nat × List Nat)} {j : Nat}
    (h : nhasKey l j = false) : nlookupD l j = [] := by
  induction l with
  | nil => rfl
  | cons p rest ih =>
    simp only [nhasKey, Bool.or_eq_false_iff] at h
    simp only [nlookupD]
    rw [if_neg (by simpa using h.1)]
    exact ih h.2

theorem nlookupD_append (l : List (Nat × List Nat)) (k j : Nat) (w : List Nat) :
    nlookupD (l ++ [(k, w)]) j
      = if nhasKey l j then nlookupD l j else if j = k then w else [] := by
  induction l with
  | nil =>
    by_cases h : j = k
    · subst h
      simp [nlookupD, nhasKey]
    · have hkj : ¬((k : Nat) = j) := fun hc => h hc.symm
      simp [nlookupD, nhasKey, h, hkj]
  | cons p rest ih =>
    by_cases h : p.1 = j
    · simp [nlookupD, nhasKey, h]
    · rw [List.cons_append]
      simp only [nlookupD, nhasKey, if_neg h]
      rw [ih]
      simp [h]

theorem nhasKey_append (l : List (Nat × List Nat)) (k j : Nat) (w : List Nat) :
    nhasKey (l ++ [(k, w)]) j = (nhasKey l j || j = k) := by
  induction l with
  | nil =>
    by_cases h : j = k
    · subst h
      simp [nhasKey]
    · have hkj : ¬((k : Nat) = j) := fun hc => h hc.symm
      simp [nhasKey, h, hkj]
  | cons p rest ih =>
    rw [List.cons_append]
    simp only [nhasKey]
    rw [ih, Bool.or_assoc]

theorem nappend_map_lookupD_ne (l : List (Nat × List Nat)) (k : Nat)
    (v : Nat) (j : Nat) (h : j ≠ k) :
    nlookupD (l.map (fun p => if p.1 = k then (k, p.2 ++ [v]) else p)) j
      = nlookupD l j := by
  induction l with
  | nil => rfl
  | cons p rest ih =>
    have hkj : ¬((k : Nat) = j) := fun hc => h hc.symm
    by_cases hp : p.1 = k
    · have hpj : ¬(p.1 = j) := by
        rw [hp]
        exact hkj
      simp [nlookupD, hp, hpj, hkj, ih]
    · by_cases hpj : p.1 = j
      · simp [nlookupD, hp, hpj, hkj, h]
      · simp [nlookupD, hp, hpj, hkj, h, ih]

theorem nappend_map_lookupD_eq (l : List (Nat × List Nat)) (k : Nat)
    (v : Nat) (h : nhasKey l k = true) :
    nlookupD (l.map (fun p => if p.1 = k then (k, p.2 ++ [v]) else p)) k
      = nlookupD l k ++ [v] := by
  induction l with
  | nil => cases h
  | cons p rest ih =>
    by_cases hp : p.1 = k
    · simp [nlookupD, hp]
    · have h' : nhasKey rest k = true := by
        simpa [nhasKey, hp] using h
      simp [nlookupD, hp, ih h']

theorem nappend_lookupD (l : List (Nat × List Nat)) (k v j : Nat) :
    nlookupD (nappend l k v) j
      = if j = k then nlookupD l j ++ [v] else nlookupD l j := by
  unfold nappend
  by_cases h : nhasKey l k
  · rw [if_pos h]
    by_cases hj : j = k
    · subst hj
      rw [if_pos rfl, nappend_map_lookupD_eq l j v h]
    · rw [if_neg hj, nappend_map_lookupD_ne l k v j hj]
  · rw [if_neg (by simp [h]), nlookupD_append]
    by_cases hj : j = k
    · subst hj
      rw [if_neg (by simp [h]), if_pos rfl,
        nlookupD_of_absent (by simpa using h), if_pos rfl]
      rfl
    · by_cases hpres : nhasKey l j
      · rw [if_pos hpres, if_neg hj]
      · rw [if_neg (by simp [hpres]), if_neg hj, if_neg hj,
          nlookupD_of_absent (by simpa using hpres)]

theorem nassign_lookupD_absent (l : List (Nat × List Nat)) (k : Nat)
    (v : List Nat) (j : Nat) (h : nhasKey l k = false) :
    nlookupD (nassign l k v) j = if j = k then v else nlookupD l j := by
  unfold nassign
  rw [if_neg (by simp [h]), nlookupD_append]
  by_cases hj : j = k
  · subst hj
    rw [if_neg (by simp [h]), if_pos rfl, if_pos rfl]
  · by_cases hpres : nhasKey l j
    · rw [if_pos hpres, if_neg hj]
    · rw [if_neg (by simp [hpres]), if_neg hj, if_neg hj,
        nlookupD_of_absent (by simpa using hpres)]

theorem nassign_hasKey_absent (l : List (Nat × List Nat)) (k : Nat)
    (v : List Nat) (j : Nat) (h : nhasKey l k = false) :
    nhasKey (nassign l k v) j = (nhasKey l j || j = k) := by
  unfold nassign
  rw [if_neg (by simp [h]), nhasKey_append]

theorem bwfold_lookupD_mem (refs : List Nat) (xnum : Nat) :
    ∀ (b : List (Nat × List Nat)) (t a : Nat),
      a ∈ nlookupD (refs.foldl (fun acc r => nappend acc r xnum) b) t ↔
        (a ∈ nlookupD b t ∨ (a = xnum ∧ t ∈ refs)) := by
  induction refs with
  | nil => simp
  | cons r rs ih =>
    intro b t a
    rw [List.foldl_cons, ih, nappend_lookupD]
    by_cases ht : t = r
    · subst ht
      simp
      tauto
    · simp [ht]

theorem tagForward_links (types : Nat → String) (me : Nat) (refs : List Nat) :
    ∀ st : AsmState, (tagForward types me refs st).forward = st.forward
      ∧ (tagForward types me refs st).backward = st.backward := by
  induction refs with
  | nil => intro st; exact ⟨rfl, rfl⟩
  | cons r rs ih =>
    intro st
    have hstep : tagForward types me (r :: rs) st
        = tagForward types me rs
          (let rt := types r
           if rt = "ADR" || rt = "ARC-C" then
             { st with withAdr := insert me st.withAdr }
           else if rt = "QA-SC" then
             { st with withScenario := insert me st.withScenario }
           else if rt = "TEST" then
             { st with withTest := insert me st.withTest }
           else st) := rfl
    rw [hstep]
    constructor
    · rw [(ih _).1]
      by_cases hA : types r = "ADR" <;> by_cases hC : types r = "ARC-C" <;>
        by_cases hQ : types r = "QA-SC" <;> by_cases hT : types r = "TEST" <;>
        simp [hA, hC, hQ, hT]
    · rw [(ih _).2]
      by_cases hA : types r = "ADR" <;> by_cases hC : types r = "ARC-C" <;>
        by_cases hQ : types r = "QA-SC" <;> by_cases hT : types r = "TEST" <;>
        simp [hA, hC, hQ, hT]

theorem tagBackward_links (types : Nat → String) (myType : String)
    (refs : List Nat) :
    ∀ st : AsmState, (tagBackward types myType refs st).forward = st.forward
      ∧ (tagBackward types myType refs st).backward = st.backward := by
  induction refs with
  | nil => intro st; exact ⟨rfl, rfl⟩
  | cons r rs ih =>
    intro st
    have hstep : tagBackward types myType (r :: rs) st
        = tagBackward types myType rs
          (if types r = "REQ-F" || types r = "REQ-NF" then
             if myType = "ADR" || myType = "ARC-C" then
               { st with withAdr := insert r st.withAdr }
             else if myType = "QA-SC" then
               { st with withScenario := insert r st.withScenario }
             else { st with withTest := insert r st.withTest }
           else st) := rfl
    rw [hstep]
    constructor
    · rw [(ih _).1]
      by_cases h1 : types r = "REQ-F" <;> by_cases h2 : types r = "REQ-NF" <;>
        by_cases h3 : myType = "ADR" <;> by_cases h4 : myType = "ARC-C" <;>
        by_cases h5 : myType = "QA-SC" <;> simp [h1, h2, h3, h4, h5]
    · rw [(ih _).2]
      by_cases h1 : types r = "REQ-F" <;> by_cases h2 : types r = "REQ-NF" <;>
        by_cases h3 : myType = "ADR" <;> by_cases h4 : myType = "ARC-C" <;>
        by_cases h5 : myType = "QA-SC" <;> simp [h1, h2, h3, h4, h5]

theorem asmStep_forward (types : Nat → String) (st : AsmState) (x : Issue) :
    (asmStep types st x).forward
      = nassign st.forward x.number (extract_issue_links x.body) := by
  unfold asmStep
  by_cases h1 : get_requirement_type x.title x.labels = "REQ-F" <;>
    by_cases h2 : get_requirement_type x.title x.labels = "REQ-NF" <;>
    by_cases h3 : get_requirement_type x.title x.labels = "ADR" <;>
    by_cases h4 : get_requirement_type x.title x.labels = "ARC-C" <;>
    by_cases h5 : get_requirement_type x.title x.labels = "QA-SC" <;>
    by_cases h6 : get_requirement_type x.title x.labels = "TEST" <;>
    simp [h1, h2, h3, h4, h5, h6, (tagForward_links _ _ _ _).1,
      (tagBackward_links _ _ _ _).1]

theorem asmStep_backward (types : Nat → String) (st : AsmState) (x : Issue) :
    (asmStep types st x).backward
      = (extract_issue_links x.body).foldl
          (fun b r => nappend b r x.number) st.backward := by
  unfold asmStep
  by_cases h1 : get_requirement_type x.title x.labels = "REQ-F" <;>
    by_cases h2 : get_requirement_type x.title x.labels = "REQ-NF" <;>
    by_cases h3 : get_requirement_type x.title x.labels = "ADR" <;>
    by_cases h4 : get_requirement_type x.title x.labels = "ARC-C" <;>
    by_cases h5 : get_requirement_type x.title x.labels = "QA-SC" <;>
    by_cases h6 : get_requirement_type x.title x.labels = "TEST" <;>
    simp [h1, h2, h3, h4, h5, h6, (tagForward_links _ _ _ _).2,
      (tagBackward_links _ _ _ _).2]

theorem asm_links_inv (types : Nat → String) (l : List Issue) :
    ∀ st : AsmState,
      (∀ a b : Nat, a ∈ nlookupD st.backward b ↔ b ∈ nlookupD st.forward a) →
      (∀ x ∈ l, nhasKey st.forward x.number = false) →
      (l.map Issue.number).Nodup →
      ∀ a b : Nat,
        a ∈ nlookupD (l.foldl (asmStep types) st).backward b ↔
          b ∈ nlookupD (l.foldl (asmStep types) st).forward a := by
  induction l with
  | nil => intro st hinv _ _ a b; exact hinv a b
  | cons y ys ih =>
    intro st hinv hfresh hnodup a b
    rw [List.foldl_cons]
    have hyfresh : nhasKey st.forward y.number = false := hfresh y (by simp)
    have hysnodup : (ys.map Issue.number).Nodup :=
      (List.nodup_cons.mp (by simpa using hnodup)).2
    have hyne : ∀ x ∈ ys, x.number ≠ y.number := by
      intro x hx hc
      exact (List.nodup_cons.mp (by simpa using hnodup)).1
        (hc ▸ List.mem_map_of_mem Issue.number hx)
    refine ih (asmStep types st y) ?_ ?_ hysnodup a b
    · intro a' b'
      rw [asmStep_forward, asmStep_backward, bwfold_lookupD_mem,
        nassign_lookupD_absent _ _ _ _ hyfresh]
      by_cases ha : a' = y.number
      · rw [if_pos ha]
        have hempty : nlookupD st.forward a' = [] := by
          rw [ha]
          exact nlookupD_of_absent hyfresh
        rw [hinv a' b', hempty]
        simp [ha]
      · rw [if_neg ha, hinv a' b']
        simp [ha]
    · intro x hx
      rw [asmStep_forward, nassign_hasKey_absent _ _ _ _ hyfresh]
      simp [hfresh x (List.mem_cons_of_mem y hx), hyne x hx]

/-- C7: in the assembled graph (whose issues carry pairwise-distinct
numbers, as the fetch loop guarantees via `seen_numbers`), forward and
backward links are mutual inverses: `a` lies in the backward list of `b`
exactly when `b` lies in the forward list of `a` — in particular no
backward entry exists that does not arise from a forward link. -/
theorem claim_C7_forward_backward_inverse (issues : List Issue)
    (h : (issues.map Issue.number).Nodup) (a b : Nat) :
    a ∈ nlookupD (assemble issues).backward b ↔
      b ∈ nlookupD (assemble issues).forward a := by
  refine asm_links_inv (issueTypeOf issues) issues _ ?_ ?_ h a b
  · intro a' b'
    simp [nlookupD]
  · intro x _
    rfl

/-- C7 witness: the invariant applied to a concrete two-issue graph with
the Nodup hypothesis discharged. -/
theorem claim_C7_forward_backward_inverse_witness :
    (([⟨1, "REQ-F-001: A", [], "see #2"⟩, ⟨2, "ADR-001: B", [], ""⟩]
        : List Issue).map Issue.number).Nodup
    ∧ (1 ∈ nlookupD (assemble [⟨1, "REQ-F-001: A", [], "see #2"⟩,
          ⟨2, "ADR-001: B", [], ""⟩]).backward 2 ↔
       2 ∈ nlookupD (assemble [⟨1, "REQ-F-001: A", [], "see #2"⟩,
          ⟨2, "ADR-001: B", [], ""⟩]).forward 1) :=
  ⟨by decide,
   claim_C7_forward_backward_inverse
     [⟨1, "REQ-F-001: A", [], "see #2"⟩, ⟨2, "ADR-001: B", [], ""⟩]
     (by decide) 1 2⟩

theorem alookup_append {α : Type} (l : List (String × α)) (k i : String) (v : α) :
    alookup (l ++ [(k, v)]) i
      = (match alookup l i with
         | some w => some w
         | none => if k = i then some v else none) := by
  induction l with
  | nil => rfl
  | cons p rest ih =>
    by_cases hp : p.1 = i
    · simp [alookup, hp]
    · simp only [List.cons_append, alookup, if_neg hp]
      exact ih

theorem alookup_eq_none {α : Type} (l : List (String × α)) (k : String) :
    alookup l k = none ↔ k ∉ l.map Prod.fst := by
  induction l with
  | nil => simp [alookup]
  | cons p rest ih =>
    by_cases hp : p.1 = k
    · simp [alookup, hp]
    · have hk : k ≠ p.1 := fun hc => hp hc.symm
      simp [alookup, hp, ih, hk]

theorem bump_map_lookup_eq (l : List (String × Nat)) (k : String) (c : Nat)
    (h : alookup l k = some c) :
    alookup (l.map (fun p => if p.1 = k then (k, c + 1) else p)) k
      = some (c + 1) := by
  induction l with
  | nil => cases h
  | cons p rest ih =>
    by_cases hp : p.1 = k
    · simp [alookup, hp]
    · simp only [alookup, if_neg hp] at h
      simp only [List.map_cons, if_neg hp, alookup, if_neg hp]
      exact ih h

theorem bump_map_lookup_ne (l : List (String × Nat)) (k j : String) (c : Nat)
    (h : j ≠ k) :
    alookup (l.map (fun p => if p.1 = k then (k, c + 1) else p)) j
      = alookup l j := by
  induction l with
  | nil => rfl
  | cons p rest ih =>
    have hkj : ¬((k : String) = j) := fun hc => h hc.symm
    by_cases hp : p.1 = k
    · have hpj : ¬(p.1 = j) := by
        rw [hp]
        exact hkj
      simp [alookup, hp, hpj, hkj, ih]
    · by_cases hpj : p.1 = j
      · simp [alookup, hp, hpj, hkj, h]
      · simp [alookup, hp, hpj, ih]

theorem bump_map_keys (l : List (String × Nat)) (k : String) (c : Nat) :
    (l.map (fun p => if p.1 = k then (k, c + 1) else p)).map Prod.fst
      = l.map Prod.fst := by
  induction l with
  | nil => rfl
  | cons p rest ih =>
    by_cases hp : p.1 = k <;> simp [hp, ih]

theorem bumpCount_lookup_self (l : List (String × Nat)) (k : String) :
    alookup (bumpCount l k) k
      = some (match alookup l k with | some c => c + 1 | none => 2) := by
  unfold bumpCount
  cases h : alookup l k with
  | none =>
    rw [alookup_append, h]
    simp
  | some c => exact bump_map_lookup_eq l k c h

theorem bumpCount_lookup_ne (l : List (String × Nat)) (k j : String)
    (h : j ≠ k) :
    alookup (bumpCount l k) j = alookup l j := by
  unfold bumpCount
  cases hl : alookup l k with
  | some c => exact bump_map_lookup_ne l k j c h
  | none =>
    rw [alookup_append]
    have hkj : ¬((k : String) = j) := fun hc => h hc.symm
    cases hj : alookup l j with
    | some w => rfl
    | none => simp [hkj]

theorem dedupStep_seen (st : DedupState) (x : SpecItem) :
    (dedupStep st x).seen
      = (match alookup st.seen x.id with
         | some _ => st.seen
         | none => st.seen ++ [(x.id, x.sourceType)]) := by
  unfold dedupStep
  cases h : alookup st.seen x.id with
  | some ft =>
    by_cases hc : (x.sourceType = "definition" && ft = "definition") = true
    · simp [hc]
    · simp [hc]
  | none => simp

theorem dedupStep_dedup (st : DedupState) (x : SpecItem) :
    (dedupStep st x).dedup
      = (match alookup st.seen x.id with
         | some _ => st.dedup
         | none => st.dedup ++ [x]) := by
  unfold dedupStep
  cases h : alookup st.seen x.id with
  | some ft =>
    by_cases hc : (x.sourceType = "definition" && ft = "definition") = true
    · simp [hc]
    · simp [hc]
  | none => simp

theorem dedupStep_dups (st : DedupState) (x : SpecItem) :
    (dedupStep st x).dups
      = (match alookup st.seen x.id with
         | some ft =>
           if x.sourceType = "definition" && ft = "definition" then
             bumpCount st.dups x.id
           else st.dups
         | none => st.dups) := by
  unfold dedupStep
  cases h : alookup st.seen x.id with
  | some ft =>
    by_cases hc : (x.sourceType = "definition" && ft = "definition") = true
    · simp [hc]
    · simp [hc]
  | none => simp

theorem dedupRun_concat (items : List SpecItem) (x : SpecItem) :
    dedupRun (items ++ [x]) = dedupStep (dedupRun items) x := by
  unfold dedupRun
  rw [List.foldl_append]
  rfl

theorem dedupRun_seen (items : List SpecItem) :
    ∀ i : String,
      alookup (dedupRun items).seen i
        = (items.find? (fun it => it.id = i)).map (fun it => it.sourceType) := by
  induction items using List.reverseRecOn with
  | nil => intro i; rfl
  | append_singleton l x ih =>
    intro i
    rw [dedupRun_concat, dedupStep_seen, List.find?_append]
    cases hseen : alookup (dedupRun l).seen x.id with
    | some ft =>
      cases hflx : l.find? (fun it => it.id = x.id) with
      | none =>
        rw [ih x.id, hflx] at hseen
        cases hseen
      | some it0 =>
        cases hfl : l.find? (fun it => it.id = i) with
        | some it =>
          rw [ih i, hfl]
          simp [Option.or]
        | none =>
          have hne : ¬(x.id = i) := by
            intro he
            rw [he] at hflx
            rw [hflx] at hfl
            cases hfl
          rw [ih i, hfl]
          simp [Option.or, List.find?_cons, hne]
    | none =>
      rw [alookup_append]
      cases hfi : l.find? (fun it => it.id = i) with
      | some it =>
        rw [ih i, hfi]
        simp [Option.or]
      | none =>
        rw [ih i, hfi]
        by_cases hxi : x.id = i
        · simp [Option.or, List.find?_cons, hxi]
        · simp [Option.or, List.find?_cons, hxi]

theorem firstOccs_append (x : SpecItem) (l : List SpecItem) :
    ∀ s : List String,
      firstOccs (l ++ [x]) s
        = firstOccs l s
          ++ (if x.id ∈ s ∨ x.id ∈ l.map SpecItem.id then [] else [x]) := by
  induction l with
  | nil =>
    intro s
    by_cases h : x.id ∈ s
    · simp [firstOccs, h]
    · simp [firstOccs, h]
  | cons it rest ih =>
    intro s
    by_cases h : it.id ∈ s
    · rw [List.cons_append]
      simp only [firstOccs, if_pos h]
      rw [ih s]
      have hcond : (x.id ∈ s ∨ x.id ∈ rest.map SpecItem.id)
          ↔ (x.id ∈ s ∨ x.id ∈ (it :: rest).map SpecItem.id) := by
        simp only [List.map_cons, List.mem_cons]
        constructor
        · rintro (h1 | h1)
          · exact Or.inl h1
          · exact Or.inr (Or.inr h1)
        · rintro (h1 | (h1 | h1))
          · exact Or.inl h1
          · exact Or.inl (h1 ▸ h)
          · exact Or.inr h1
      rw [if_congr hcond rfl rfl]
    · rw [List.cons_append]
      simp only [firstOccs, if_neg h]
      rw [ih (s ++ [it.id])]
      have hcond : (x.id ∈ s ++ [it.id] ∨ x.id ∈ rest.map SpecItem.id)
          ↔ (x.id ∈ s ∨ x.id ∈ (it :: rest).map SpecItem.id) := by
        simp only [List.mem_append, List.mem_singleton, List.map_cons,
          List.mem_cons]
        tauto
      rw [if_congr hcond rfl rfl, List.cons_append]

theorem dedupRun_dedup (items : List SpecItem) :
    (dedupRun items).dedup = firstOccs items [] := by
  induction items using List.reverseRecOn with
  | nil => rfl
  | append_singleton l x ih =>
    rw [dedupRun_concat, dedupStep_dedup, firstOccs_append]
    cases hseen : alookup (dedupRun l).seen x.id with
    | some ft =>
      have hmem : x.id ∈ l.map SpecItem.id := by
        rw [dedupRun_seen] at hseen
        cases hflx : l.find? (fun it => it.id = x.id) with
        | none =>
          rw [hflx] at hseen
          cases hseen
        | some it0 =>
          have h1 : it0 ∈ l := List.mem_of_find?_eq_some hflx
          have h2 : it0.id = x.id := by simpa using List.find?_some hflx
          exact h2 ▸ List.mem_map_of_mem SpecItem.id h1
      rw [if_pos (Or.inr hmem), List.append_nil, ih]
    | none =>
      have hmem : ¬(x.id ∈ [] ∨ x.id ∈ l.map SpecItem.id) := by
        rw [dedupRun_seen] at hseen
        rintro (h1 | h1)
        · cases h1
        · obtain ⟨it0, hit0, hid⟩ := List.mem_map.mp h1
          have : l.find? (fun it => it.id = x.id) = none := by
            cases hq : l.find? (fun it => it.id = x.id) with
            | none => rfl
            | some w =>
              rw [hq] at hseen
              cases hseen
          rw [List.find?_eq_none] at this
          exact this it0 hit0 (by simpa using hid)
      rw [if_neg hmem, ih]

theorem dupsSpec_append_ne (l : List SpecItem) (x : SpecItem) (i : String)
    (h : ¬(x.id = i)) : dupsSpec (l ++ [x]) i = dupsSpec l i := by
  unfold dupsSpec countDefs
  rw [List.find?_append, List.countP_append]
  have hx : [x].find? (fun it => it.id = i) = none := by
    simp [List.find?_cons, h]
  have hcp : [x].countP (fun it => it.id = i && it.sourceType = "definition")
      = 0 := by
    simp [List.countP_cons, h]
  rw [hx, hcp]
  cases l.find? (fun it => it.id = i) with
  | none => simp [Option.or]
  | some it0 => simp [Option.or]

theorem dedupRun_dups (items : List SpecItem) :
    ∀ i : String, alookup (dedupRun items).dups i = dupsSpec items i := by
  induction items using List.reverseRecOn with
  | nil => intro i; rfl
  | append_singleton l x ih =>
    intro i
    rw [dedupRun_concat, dedupStep_dups]
    by_cases hxi : x.id = i
    · subst hxi
      cases hflx : l.find? (fun it => it.id = x.id) with
      | none =>
        have hseen : alookup (dedupRun l).seen x.id = none := by
          rw [dedupRun_seen, hflx]
          rfl
        have hd0 : dupsSpec l x.id = none := by
          unfold dupsSpec
          rw [hflx]
        have hcd : countDefs l x.id = 0 := by
          unfold countDefs
          rw [List.countP_eq_zero]
          intro it hit
          have hne := List.find?_eq_none.mp hflx it hit
          simp at hne
          simp [hne]
        simp only [hseen]
        rw [ih x.id, hd0]
        unfold dupsSpec
        rw [List.find?_append, hflx]
        have hfx : [x].find? (fun it => it.id = x.id) = some x := by
          simp [List.find?_cons]
        rw [hfx]
        have hcd' : countDefs (l ++ [x]) x.id ≤ 1 := by
          unfold countDefs at hcd ⊢
          rw [List.countP_append, hcd]
          simp [List.countP_cons]
          split <;> omega
        simp only [Option.or]
        have hnot : ¬(x.sourceType = "definition"
            ∧ 2 ≤ countDefs (l ++ [x]) x.id) := by
          rintro ⟨_, h2⟩
          omega
        rw [if_neg hnot]
      | some it0 =>
        have hseen : alookup (dedupRun l).seen x.id = some it0.sourceType := by
          rw [dedupRun_seen, hflx]
          rfl
        have hfind' : (l ++ [x]).find? (fun it => it.id = x.id) = some it0 := by
          rw [List.find?_append, hflx]
          rfl
        have hcd' : countDefs (l ++ [x]) x.id
            = countDefs l x.id
              + (if x.sourceType = "definition" then 1 else 0) := by
          unfold countDefs
          rw [List.countP_append]
          simp [List.countP_cons]
        have hds : dupsSpec l x.id
            = if it0.sourceType = "definition" ∧ 2 ≤ countDefs l x.id
              then some (countDefs l x.id) else none := by
          unfold dupsSpec
          rw [hflx]
        have hds2 : dupsSpec (l ++ [x]) x.id
            = if it0.sourceType = "definition" ∧ 2 ≤ countDefs (l ++ [x]) x.id
              then some (countDefs (l ++ [x]) x.id) else none := by
          unfold dupsSpec
          rw [hfind']
        simp only [hseen]
        by_cases hxd : x.sourceType = "definition"
        · by_cases h0d : it0.sourceType = "definition"
          · rw [if_pos (by simp [hxd, h0d]), bumpCount_lookup_self, ih x.id,
              hds, hds2]
            have hge1 : 1 ≤ countDefs l x.id := by
              refine List.countP_pos_iff.mpr
                ⟨it0, List.mem_of_find?_eq_some hflx, ?_⟩
              simp [h0d]
              simpa using List.find?_some hflx
            have hplus : countDefs (l ++ [x]) x.id = countDefs l x.id + 1 := by
              rw [hcd']
              simp [hxd]
            by_cases h2 : 2 ≤ countDefs l x.id
            · rw [if_pos ⟨h0d, h2⟩, if_pos ⟨h0d, by omega⟩, hplus]
            · have h1 : countDefs l x.id = 1 := by omega
              rw [if_neg (fun hcon => h2 hcon.2), if_pos ⟨h0d, by omega⟩,
                hplus, h1]
          · rw [if_neg (by simp [h0d]), ih x.id, hds, hds2,
              if_neg (fun hcon => h0d hcon.1), if_neg (fun hcon => h0d hcon.1)]
        · have hsame : countDefs (l ++ [x]) x.id = countDefs l x.id := by
            rw [hcd']
            simp [hxd]
          rw [if_neg (by simp [hxd]), ih x.id, hds, hds2, hsame]
    · rw [dupsSpec_append_ne l x i hxi]
      cases hseen : alookup (dedupRun l).seen x.id with
      | none => exact ih i
      | some ft =>
        by_cases hc : (x.sourceType = "definition" && ft = "definition") = true
        · simp only [hc, if_true]
          rw [bumpCount_lookup_ne _ _ _ (fun hc2 => hxi hc2.symm)]
          exact ih i
        · simp only [hc, if_false]
          exact ih i

theorem dedupRun_dups_keys (items : List SpecItem) :
    ((dedupRun items).dups.map Prod.fst).Nodup := by
  induction items using List.reverseRecOn with
  | nil => exact List.nodup_nil
  | append_singleton l x ih =>
    rw [dedupRun_concat, dedupStep_dups]
    cases hseen : alookup (dedupRun l).seen x.id with
    | none => exact ih
    | some ft =>
      by_cases hc : (x.sourceType = "definition" && ft = "definition") = true
      · simp only [hc, if_true]
        unfold bumpCount
        cases hdl : alookup (dedupRun l).dups x.id with
        | some c =>
          rw [bump_map_keys]
          exact ih
        | none =>
          rw [List.map_append]
          rw [List.nodup_append]
          refine ⟨ih, by simp, ?_⟩
          intro a ha hax
          have hxa : a = x.id := by simpa using hax
          exact (alookup_eq_none _ _).mp hdl (hxa ▸ ha)
      · simp only [hc, if_false]
        exact ih

theorem countP_key_eq_one {α : Type} (l : List (String × α)) (i : String)
    (hnodup : (l.map Prod.fst).Nodup) (h : (alookup l i).isSome = true) :
    l.countP (fun p => p.1 = i) = 1 := by
  induction l with
  | nil => simp [alookup] at h
  | cons p rest ih =>
    rw [List.countP_cons]
    have hnodup2 : (p.1 :: rest.map Prod.fst).Nodup := by simpa using hnodup
    have hnd := List.nodup_cons.mp hnodup2
    by_cases hp : p.1 = i
    · have hrest : rest.countP (fun q => q.1 = i) = 0 := by
        rw [List.countP_eq_zero]
        intro q hq hqi
        apply hnd.1
        have hq1 : q.1 = i := by simpa using hqi
        exact (hp.trans hq1.symm) ▸ List.mem_map_of_mem Prod.fst hq
      simp [hp, hrest]
    · have h' : (alookup rest i).isSome = true := by
        simpa [alookup, hp] using h
      simp [hp, ih hnd.2 h']

theorem firstOccs_not_mem (i : String) :
    ∀ (l : List SpecItem) (s : List String), i ∈ s →
      (firstOccs l s).filter (fun it => it.id = i) = [] := by
  intro l
  induction l with
  | nil => intro s _; rfl
  | cons it rest ih =>
    intro s hs
    by_cases h : it.id ∈ s
    · simp only [firstOccs, if_pos h]
      exact ih s hs
    · have hit : ¬(it.id = i) := fun hc => h (hc ▸ hs)
      simp only [firstOccs, if_neg h]
      rw [List.filter_cons_of_neg (by simpa using hit)]
      exact ih (s ++ [it.id]) (List.mem_append_left _ hs)

theorem firstOccs_filter (i : String) :
    ∀ (l : List SpecItem) (s : List String), i ∉ s →
      (firstOccs l s).filter (fun it => it.id = i)
        = (match l.find? (fun it => it.id = i) with
           | some it0 => [it0]
           | none => []) := by
  intro l
  induction l with
  | nil => intro s _; rfl
  | cons it rest ih =>
    intro s hs
    by_cases h : it.id ∈ s
    · have hit : ¬(it.id = i) := fun hc => hs (hc ▸ h)
      simp only [firstOccs, if_pos h, List.find?_cons]
      rw [show (decide (it.id = i)) = false by simpa using hit]
      exact ih s hs
    · simp only [firstOccs, if_neg h, List.find?_cons]
      by_cases hit : it.id = i
      · rw [List.filter_cons_of_pos (by simpa using hit),
          show (decide (it.id = i)) = true by simpa using hit]
        rw [firstOccs_not_mem i rest (s ++ [it.id])
          (List.mem_append_right _ (by simp [hit]))]
      · rw [List.filter_cons_of_neg (by simpa using hit),
          show (decide (it.id = i)) = false by simpa using hit]
        refine ih (s ++ [it.id]) ?_
        intro hc
        rcases List.mem_append.mp hc with hc1 | hc1
        · exact hs hc1
        · have hieq : i = it.id := by simpa using hc1
          exact hit hieq.symm

/-- C1 counterexample: when a reference occurrence of `ADR-003` precedes
two definition claims, the dedup loop keeps the reference as the
retained item and records nothing in `duplicate_definition_ids` — the
identifier is claimed as a definition by two blobs yet does not appear
in the side list at all, contradicting "appears exactly once with count
2". -/
theorem claim_C1_counterexample :
    (dedupRun
      [⟨"ADR-003", "t", "a.md", "reference", [], "h0"⟩,
       ⟨"ADR-003", "t", "b.md", "definition", [], "h1"⟩,
       ⟨"ADR-003", "t", "c.md", "definition", [], "h2"⟩]).dups = []
    ∧ countDefs
      [⟨"ADR-003", "t", "a.md", "reference", [], "h0"⟩,
       ⟨"ADR-003", "t", "b.md", "definition", [], "h1"⟩,
       ⟨"ADR-003", "t", "c.md", "definition", [], "h2"⟩] "ADR-003" = 2 := by
  refine ⟨by decide, by decide⟩

/-- C1 amended: when the FIRST occurrence of an identifier in scan order
is itself a definition claim, the loop keeps exactly that first item
(later definition claims never overwrite it), and the identifier appears
exactly once in `duplicate_definition_ids` with count equal to the total
number of definition claims (2 for two defining blobs); but when a
reference occurrence precedes the definitions, the reference is kept and
the identifier is not recorded in the side list. -/
theorem claim_C1_amended (items : List SpecItem) (i : String)
    (it0 : SpecItem) (k : Nat)
    (hfirst : items.find? (fun it => it.id = i) = some it0)
    (hdef : it0.sourceType = "definition")
    (hcount : countDefs items i = k) (h2 : 2 ≤ k) :
    alookup (dedupRun items).dups i = some k
    ∧ (dedupRun items).dups.countP (fun p => p.1 = i) = 1
    ∧ (dedupRun items).dedup.filter (fun it => it.id = i) = [it0] := by
  have hlook : alookup (dedupRun items).dups i = some k := by
    rw [dedupRun_dups items i]
    have hds : dupsSpec items i
        = if it0.sourceType = "definition" ∧ 2 ≤ countDefs items i
          then some (countDefs items i) else none := by
      unfold dupsSpec
      rw [hfirst]
    rw [hds, hcount, if_pos ⟨hdef, h2⟩]
  refine ⟨hlook, ?_, ?_⟩
  · exact countP_key_eq_one _ i (dedupRun_dups_keys items) (by rw [hlook]; rfl)
  · rw [dedupRun_dedup items, firstOccs_filter i items [] (by simp), hfirst]

/-- C1 witness: the amended statement at two concrete defining items,
with every hypothesis discharged. -/
theorem claim_C1_amended_witness :
    ([⟨"ADR-003", "A", "b.md", "definition", [], "h1"⟩,
      ⟨"ADR-003", "B", "c.md", "definition", [], "h2"⟩]
        : List SpecItem).find? (fun it => it.id = "ADR-003")
      = some ⟨"ADR-003", "A", "b.md", "definition", [], "h1"⟩
    ∧ alookup (dedupRun
        [⟨"ADR-003", "A", "b.md", "definition", [], "h1"⟩,
         ⟨"ADR-003", "B", "c.md", "definition", [], "h2"⟩]).dups "ADR-003"
      = some 2 :=
  ⟨by decide,
   (claim_C1_amended
     [⟨"ADR-003", "A", "b.md", "definition", [], "h1"⟩,
      ⟨"ADR-003", "B", "c.md", "definition", [], "h2"⟩]
     "ADR-003" ⟨"ADR-003", "A", "b.md", "definition", [], "h1"⟩ 2
     (by decide) (by decide) (by decide) (by decide)).1⟩

/-- C2 counterexample: on an input with zero requirement-type artifacts
(one TEST-typed issue), the issues-path metric computation emits only
the `requirement` metric (at 0) and omits the other three entirely — it
does not return all four metrics at 0.0. -/
theorem claim_C2_counterexample :
    (issuesMetrics [⟨2, "TEST-001: t", [], ""⟩]).requirement.coverage_pct = 0
    ∧ (issuesMetrics [⟨2, "TEST-001: t", [], ""⟩]).requirement_to_ADR = none
    ∧ (issuesMetrics [⟨2, "TEST-001: t", [], ""⟩]).requirement_to_scenario = none
    ∧ (issuesMetrics [⟨2, "TEST-001: t", [], ""⟩]).requirement_to_test = none := by
  refine ⟨by decide, by decide, by decide, by decide⟩

/-- C2 amended: with zero requirement-type artifacts neither path raises
(both computations are total): the markdown-path `calculate_metrics`
returns all four metrics at 0.0, while the issues-path computation
returns only the `requirement` metric at percentage 0 and omits the
other three. -/
theorem claim_C2_amended :
    calculate_metrics [] [] =
      { requirement := 0, requirement_to_ADR := 0
        requirement_to_scenario := 0, requirement_to_test := 0 }
    ∧ (∀ issues : List Issue, (assemble issues).reqs = [] →
        (issuesMetrics issues).requirement.coverage_pct = 0
        ∧ (issuesMetrics issues).requirement_to_ADR = none
        ∧ (issuesMetrics issues).requirement_to_scenario = none
        ∧ (issuesMetrics issues).requirement_to_test = none) := by
  constructor
  · rfl
  · intro issues h
    simp [issuesMetrics, h]

/-- C2 witness: the amended statement applied at a concrete input with a
discharged hypothesis. -/
theorem claim_C2_amended_witness :
    (assemble [⟨2, "TEST-001: t", [], ""⟩]).reqs = []
    ∧ (issuesMetrics [⟨2, "TEST-001: t", [], ""⟩]).requirement_to_scenario = none :=
  ⟨by decide, (claim_C2_amended.2 [⟨2, "TEST-001: t", [], ""⟩] (by decide)).2.2.1⟩

end Trace
